import Mathlib

/-!
Verification of the fault-tolerant JSON recovery engine in
`src/lib/json-utils.ts` (functions `extractJson`, `findJsonFragments`,
`safeStringify`).

The TypeScript source is shallowly embedded over `List Char`:

* `jsonParse` models the JavaScript builtin `JSON.parse` (RFC 8259
  grammar).  Numbers are modelled by their lexeme (the exact character
  run matched by the JSON number grammar) rather than by an IEEE float;
  no claim below compares numeric values across distinct lexemes, so
  this is observationally adequate for every statement in this file.
  The value of a `\uXXXX` escape that is a lone surrogate cannot be
  denoted by a Lean `Char`; the model rejects such strings (valid
  surrogate pairs are combined, as `JSON.parse` does).
* The two candidate-finding regular expressions in `extractJson` are
  embedded by an equivalent deterministic character walk (`spanAux`,
  `regexMatches`); a derivation of the equivalence is given at the
  definitions.
* Fallible code returns `Except`/`Option`; the only `throw` in the
  source (the size guard) becomes the `.error` constructor.
* `warnings.push` calls are modelled by an inductive `Warning` whose
  constructors carry the line number where the source interpolates one;
  the engine-specific text of the caught `JSON.parse` error message is
  abstracted by the single constructor `invalidJson`.
-/

/-- Characters recognised by `String.prototype.trim` that can occur in
the inputs modelled here (ASCII whitespace). -/
def isJsWs (c : Char) : Bool :=
  c = ' ' ∨ c = '\t' ∨ c = '\n' ∨ c = '\x0d' ∨ c = '\x0b' ∨ c = '\x0c'

/-- Model of `text.trim()`. -/
def trimChars (cs : List Char) : List Char :=
  ((cs.dropWhile isJsWs).reverse.dropWhile isJsWs).reverse

/-- Model of `text.split("\n")`. -/
def splitLines : List Char → List (List Char)
  | [] => [[]]
  | c :: rest =>
    if c = '\n' then [] :: splitLines rest
    else
      match splitLines rest with
      | [] => [[c]]
      | l :: ls => (c :: l) :: ls

/-- Decimal digits of a natural number, as characters (for the
`"__corrupt_line_" + lineNumber` interpolation). -/
def natChars (n : Nat) : List Char :=
  (Nat.toDigits 10 n)

/-- The size limit used by both functions in the source. -/
def MAXLEN : Nat := 10000000

/-- JSON whitespace accepted between tokens by `JSON.parse`. -/
def isJsonWs (c : Char) : Bool :=
  c = ' ' ∨ c = '\t' ∨ c = '\n' ∨ c = '\x0d'

def skipWs : List Char → List Char
  | [] => []
  | c :: rest => if isJsonWs c then skipWs rest else c :: rest

/-- JSON values (the spec data model `JsonValue`): objects are ordered
association lists; numbers carry their source lexeme. -/
inductive Json where
  | null : Json
  | bool (b : Bool) : Json
  | num (lex : List Char) : Json
  | str (s : List Char) : Json
  | arr (elems : List Json) : Json
  | obj (members : List (List Char × Json)) : Json

def hexVal (c : Char) : Option Nat :=
  if '0' ≤ c ∧ c ≤ '9' then some (c.toNat - 48)
  else if 'a' ≤ c ∧ c ≤ 'f' then some (c.toNat - 87)
  else if 'A' ≤ c ∧ c ≤ 'F' then some (c.toNat - 55)
  else none

def parseHex4 (a b c d : Char) : Option Nat := do
  let x ← hexVal a
  let y ← hexVal b
  let z ← hexVal c
  let w ← hexVal d
  pure (((x * 16 + y) * 16 + z) * 16 + w)

/-- One escape sequence after a backslash: the decoded character and
the input following the escape.  A `\uXXXX` escape that is a lone
surrogate has no `Char` denotation and is rejected; a valid surrogate
pair is combined, as `JSON.parse` does. -/
def parseEscape : List Char → Option (Char × List Char)
  | [] => none
  | e :: rest2 =>
    if e = '"' then some ('"', rest2)
    else if e = '\\' then some ('\\', rest2)
    else if e = '/' then some ('/', rest2)
    else if e = 'b' then some ('\x08', rest2)
    else if e = 'f' then some ('\x0c', rest2)
    else if e = 'n' then some ('\n', rest2)
    else if e = 'r' then some ('\x0d', rest2)
    else if e = 't' then some ('\t', rest2)
    else if e = 'u' then
      match rest2 with
      | a :: b :: c2 :: d :: rest3 =>
        match parseHex4 a b c2 d with
        | none => none
        | some n =>
          if n < 0xd800 ∨ 0xdfff < n then some (Char.ofNat n, rest3)
          else if n < 0xdc00 then
            match rest3 with
            | '\\' :: 'u' :: a2 :: b2 :: c3 :: d2 :: rest4 =>
              match parseHex4 a2 b2 c3 d2 with
              | some m =>
                if 0xdc00 ≤ m ∧ m ≤ 0xdfff then
                  some (Char.ofNat (0x10000 + (n - 0xd800) * 0x400 + (m - 0xdc00)), rest4)
                else none
              | none => none
            | _ => none
          else none
      | _ => none
    else none

/-- Body of a JSON string literal, after the opening quote: returns the
decoded characters and the input after the closing quote.  The fuel is
spent one unit per decoded character, so one more than the input length
never runs out. -/
def parseStringBodyF : Nat → List Char → Option (List Char × List Char)
  | 0, _ => none
  | f + 1, cs =>
    match cs with
    | [] => none
    | c :: rest =>
      if c = '"' then some ([], rest)
      else if c = '\\' then
        match parseEscape rest with
        | some (ch, rest2) =>
          (parseStringBodyF f rest2).map (fun p => (ch :: p.1, p.2))
        | none => none
      else if c.toNat < 32 then none
      else (parseStringBodyF f rest).map (fun p => (c :: p.1, p.2))

def parseStringBody (cs : List Char) : Option (List Char × List Char) :=
  parseStringBodyF (cs.length + 1) cs

def isDigitC (c : Char) : Bool := '0' ≤ c ∧ c ≤ '9'

def takeDigits : List Char → List Char × List Char
  | [] => ([], [])
  | c :: rest =>
    if isDigitC c then
      let p := takeDigits rest
      (c :: p.1, p.2)
    else ([], c :: rest)

/-- JSON integer part: `0 | [1-9][0-9]*`. -/
def lexIntPart : List Char → Option (List Char × List Char)
  | [] => none
  | c :: rest =>
    if c = '0' then some ([c], rest)
    else if isDigitC c then
      let p := takeDigits rest
      some (c :: p.1, p.2)
    else none

/-- Optional JSON fraction part: `('.' [0-9]+)?`. -/
def lexFrac : List Char → Option (List Char × List Char)
  | '.' :: rest =>
    match takeDigits rest with
    | ([], _) => none
    | (ds, r) => some ('.' :: ds, r)
  | cs => some ([], cs)

/-- Optional sign of an exponent. -/
def lexExpSign : List Char → List Char × List Char
  | [] => ([], [])
  | s :: r => if s = '+' ∨ s = '-' then ([s], r) else (([] : List Char), s :: r)

/-- Optional JSON exponent part: `([eE][+-]?[0-9]+)?`. -/
def lexExp : List Char → Option (List Char × List Char)
  | [] => some ([], [])
  | c :: rest =>
    if c = 'e' ∨ c = 'E' then
      let p := lexExpSign rest
      match takeDigits p.2 with
      | ([], _) => none
      | (ds, r) => some (c :: (p.1 ++ ds), r)
    else some ([], c :: rest)

/-- Optional leading minus sign. -/
def lexSign : List Char → List Char × List Char
  | '-' :: r => ((['-'] : List Char), r)
  | cs => ([], cs)

/-- Maximal-munch JSON number lexeme: `-? int frac? exp?`. -/
def lexNumber (cs : List Char) : Option (List Char × List Char) :=
  let p := lexSign cs
  match lexIntPart p.2 with
  | none => none
  | some (ip, cs2) =>
    match lexFrac cs2 with
    | none => none
    | some (fp, cs3) =>
      match lexExp cs3 with
      | none => none
      | some (ep, cs4) => some (p.1 ++ ip ++ fp ++ ep, cs4)

/-- Array tail: after the first element, repeatedly a comma and an
element until the closing bracket.  The element parser is passed in so
that the recursion here is structural on its own fuel. -/
def itemsLoop (pv : List Char → Option (Json × List Char)) :
    Nat → List Json → List Char → Option (Json × List Char)
  | 0, _, _ => none
  | f + 1, acc, cs =>
    match cs with
    | ']' :: rest => some (Json.arr acc.reverse, rest)
    | ',' :: rest =>
      match pv (skipWs rest) with
      | none => none
      | some (v, r1) => itemsLoop pv f (v :: acc) (skipWs r1)
    | _ => none

/-- JavaScript object semantics for duplicate keys: the first occurrence
fixes the position, a later occurrence overwrites the value. -/
def insertKey (acc : List (List Char × Json)) (k : List Char) (v : Json) :
    List (List Char × Json) :=
  if acc.any (fun p => p.1 = k) then acc.map (fun p => if p.1 = k then (k, v) else p)
  else acc ++ [(k, v)]

def objOfMembers (ms : List (List Char × Json)) : Json :=
  Json.obj (ms.foldl (fun acc p => insertKey acc p.1 p.2) [])

/-- One `"key": value` member. -/
def parseMember (pv : List Char → Option (Json × List Char)) (cs : List Char) :
    Option ((List Char × Json) × List Char) :=
  match cs with
  | '"' :: r2 =>
    match parseStringBody r2 with
    | some (k, r3) =>
      match skipWs r3 with
      | ':' :: r4 =>
        match pv (skipWs r4) with
        | some (v, r5) => some ((k, v), r5)
        | none => none
      | _ => none
    | none => none
  | _ => none

def membersLoop (pv : List Char → Option (Json × List Char)) :
    Nat → List (List Char × Json) → List Char → Option (Json × List Char)
  | 0, _, _ => none
  | f + 1, acc, cs =>
    match cs with
    | '}' :: rest => some (objOfMembers acc.reverse, rest)
    | ',' :: rest =>
      match parseMember pv (skipWs rest) with
      | some (m, r1) => membersLoop pv f (m :: acc) (skipWs r1)
      | none => none
    | _ => none

/-- One JSON value.  The fuel bounds bracket-nesting depth only; each
unit of fuel is spent together with the consumption of an opening
bracket, so `2 * length + 4` at the top can never run out. -/
def parseValue : Nat → List Char → Option (Json × List Char)
  | 0, _ => none
  | f + 1, cs =>
    match cs with
    | [] => none
    | c :: rest =>
      if c = '{' then
        match skipWs rest with
        | '}' :: r => some (Json.obj [], r)
        | cs1 =>
          match parseMember (parseValue f) cs1 with
          | some (m, r1) => membersLoop (parseValue f) (r1.length + 1) [m] (skipWs r1)
          | none => none
      else if c = '[' then
        match skipWs rest with
        | ']' :: r => some (Json.arr [], r)
        | cs1 =>
          match parseValue f cs1 with
          | some (v, r1) => itemsLoop (parseValue f) (r1.length + 1) [v] (skipWs r1)
          | none => none
      else if c = '"' then (parseStringBody rest).map (fun p => (Json.str p.1, p.2))
      else if c = 'n' then
        match rest with
        | 'u' :: 'l' :: 'l' :: r => some (Json.null, r)
        | _ => none
      else if c = 't' then
        match rest with
        | 'r' :: 'u' :: 'e' :: r => some (Json.bool true, r)
        | _ => none
      else if c = 'f' then
        match rest with
        | 'a' :: 'l' :: 's' :: 'e' :: r => some (Json.bool false, r)
        | _ => none
      else if c = '-' ∨ isDigitC c then
        (lexNumber (c :: rest)).map (fun p => (Json.num p.1, p.2))
      else none

/-- `JSON.parse`: one JSON value spanning the whole input up to
whitespace. -/
def jsonParse (t : List Char) : Option Json :=
  match parseValue (2 * t.length + 4) (skipWs t) with
  | some (v, rest) => if skipWs rest = [] then some v else none
  | none => none

/-!
### The candidate regular expressions of `extractJson`

The source scans with two global JavaScript regexes:

* objects: a brace, then a greedy star over (any non-brace character, or
  a nested group of the same shape one level deeper), closed by a brace,
  with three nesting levels in total;
* arrays: the same with square brackets (braces and quotes are plain
  characters there, and vice versa).

For such a pattern, a match attempt at a given start position can only
succeed on the substring running to the delimiter that balances the
opening one (counting only that pattern's delimiter pair and ignoring
every other character, string quotes included), and it fails exactly
when no balancing delimiter exists or the nesting depth exceeds three
before it is reached; the star offers no shorter alternative because a
closing delimiter can only be consumed by closing a group.  A global
`text.match` then yields the leftmost non-overlapping such matches,
restarting one character further after a failed attempt.  `spanAux` and
`regexMatches` implement exactly that walk. -/

/-- Attempt of the depth-limited pattern at the current position:
`d` open delimiters so far; fails if a fourth level would open. -/
def spanAux (oc cc : Char) : List Char → Nat → Option (List Char × List Char)
  | [], _ => none
  | c :: rest, d =>
    if c = oc then
      if 3 ≤ d then none
      else (spanAux oc cc rest (d + 1)).map (fun p => (c :: p.1, p.2))
    else if c = cc then
      if d = 1 then some ([c], rest)
      else if d = 0 then none
      else (spanAux oc cc rest (d - 1)).map (fun p => (c :: p.1, p.2))
    else (spanAux oc cc rest d).map (fun p => (c :: p.1, p.2))

/-- Leftmost non-overlapping matches of one of the two candidate
patterns (`text.match(pattern)`, `null` result read as the empty list).
The fuel is called with the text length; one unit is spent per character
of scan progress, which never exceeds the input length. -/
def regexMatches (oc cc : Char) : Nat → List Char → List (List Char)
  | 0, _ => []
  | _ + 1, [] => []
  | f + 1, c :: rest =>
    if c = oc then
      match spanAux oc cc (c :: rest) 0 with
      | some (m, r) => m :: regexMatches oc cc f r
      | none => regexMatches oc cc f rest
    else regexMatches oc cc f rest

/-- The candidate fragments tried by `extractJson`, in the order the
source tries them: all matches of the object pattern, then all matches
of the array pattern. -/
def candidates (t : List Char) : List (List Char) :=
  regexMatches '{' '}' t.length t ++ regexMatches '[' ']' t.length t

/-- The body of the candidate loop: keep the current best (match text
and parsed value); a candidate is skipped unless strictly longer than
the current best, then validated by `JSON.parse`. -/
def pickStep (best : List Char × Option Json) (m : List Char) :
    List Char × Option Json :=
  if m.length ≤ best.1.length then best
  else
    match jsonParse m with
    | some v => (m, some v)
    | none => best

/-- The error thrown by the size guard. -/
inductive JsError where
  | sizeLimitExceeded : JsError
deriving DecidableEq

/-- `extractJson` from `src/lib/json-utils.ts`. -/
def extractJson (t : List Char) : Except JsError (Option Json) :=
  if trimChars t = [] then .ok none
  else if MAXLEN < t.length then .error .sizeLimitExceeded
  else
    match jsonParse t with
    | some v => .ok (some v)
    | none => .ok ((candidates t).foldl pickStep ([], none)).2

/-- The warnings pushed by `findJsonFragments`, one constructor per
`warnings.push` site, carrying the interpolated line number:
`invalidJson` abstracts the engine-specific message of the caught
`JSON.parse` exception. -/
inductive Warning where
  | invalidJson : Warning
  | couldNotDetermineStructure : Warning
  | mismatchedBrackets (line : Nat) : Warning
  | invalidControlChar (line : Nat) : Warning
  | unclosedString (line : Nat) : Warning
  | potentiallyCorrupt (line : Nat) : Warning
  | reconstructionFailed : Warning
  | couldNotRecover : Warning
deriving DecidableEq

/-- String/bracket state carried across lines by the first pass. -/
structure ScanSt where
  inString : Bool
  stack : List Char
deriving DecidableEq

/-- The per-character loop of the first pass on one line.  Returns the
state at loop exit, whether the line was flagged by this loop, and the
warnings it pushed.  A mismatched bracket or an invalid control
character breaks out of the loop, freezing the state mid-line. -/
def scanLine (prev : Option Char) (lineNo : Nat) (st : ScanSt) :
    List Char → ScanSt × Bool × List Warning
  | [] => (st, false, [])
  | c :: rest =>
    let inS := if c = '"' ∧ prev ≠ some '\\' then !st.inString else st.inString
    if !inS ∧ (c = '{' ∨ c = '[') then
      scanLine (some c) lineNo { inString := inS, stack := c :: st.stack } rest
    else if !inS ∧ (c = '}' ∨ c = ']') then
      match st.stack with
      | [] => ({ inString := inS, stack := [] }, true, [.mismatchedBrackets lineNo])
      | b :: bs =>
        if (c = '}' ∧ b ≠ '{') ∨ (c = ']' ∧ b ≠ '[') then
          ({ inString := inS, stack := bs }, true, [.mismatchedBrackets lineNo])
        else scanLine (some c) lineNo { inString := inS, stack := bs } rest
    else if inS ∧ c.toNat < 32 ∧ c ≠ '\t' then
      ({ inString := inS, stack := st.stack }, true, [.invalidControlChar lineNo])
    else scanLine (some c) lineNo { inString := inS, stack := st.stack } rest

/-- State threaded through the first pass, line by line. -/
structure LineSt where
  scan : ScanSt
  currentLine : List Char
  lineNo : Nat
  warnings : List Warning
  corrupt : List Nat
deriving DecidableEq

/-- `{currentLine}{,?}{line}` wrapped in the outer bracket pair — the
context-parse probe of the first pass. -/
def wrapTest (isObject : Bool) (currentLine line : List Char) : List Char :=
  (if isObject then ['{'] else ['[']) ++
    currentLine ++ (if currentLine ≠ [] then [','] else []) ++ line ++
    (if isObject then ['}'] else [']'])

def hasColon (l : List Char) : Bool := l.any (fun c => c = ':')

def hasBracketChar (l : List Char) : Bool :=
  l.any (fun c => c = '{' ∨ c = '}' ∨ c = '[' ∨ c = ']')

/-- First-pass handling of one line: character scan, unclosed-string
check, context-parse probe with the colon-and-bracket heuristic, and
recording of the flagged line number. -/
def processLine (isObject : Bool) (st : LineSt) (line : List Char) : LineSt :=
  let n := st.lineNo + 1
  let s1 := scanLine none n st.scan line
  let corrupt1 := s1.2.1
  let w1 := s1.2.2
  let unclosed := s1.1.inString
  let w2 : List Warning := if unclosed then [.unclosedString n] else []
  let testJson := wrapTest isObject st.currentLine line
  let parsedOk := (jsonParse testJson).isSome
  let heuristic := !parsedOk ∧ hasColon line ∧ hasBracketChar line
  let w3 : List Warning := if heuristic then [.potentiallyCorrupt n] else []
  let currentLine' :=
    if parsedOk then st.currentLine ++ (if st.currentLine ≠ [] then [','] else []) ++ line
    else st.currentLine
  let isCorrupt := corrupt1 ∨ unclosed ∨ heuristic
  { scan := { inString := false, stack := s1.1.stack },
    currentLine := currentLine'
    lineNo := n
    warnings := st.warnings ++ w1 ++ w2 ++ w3
    corrupt := if isCorrupt then st.corrupt ++ [n] else st.corrupt }

/-- Second pass: the body lines of the reconstructed document.
`n` is the number of lines already emitted, `total` the number of lines
of the original text; a corrupt line becomes a placeholder, the comma
rule is exactly the source's (`isFirstLine` / last original line). -/
def reconLines (isObject : Bool) (total : Nat) (corrupt : List Nat) :
    Nat → Bool → List (List Char) → List Char
  | _, _, [] => []
  | n, first, l :: ls =>
    let n' := n + 1
    let piece :=
      if corrupt.contains n' then
        (' ' :: ' ' :: []) ++
          (if isObject then
            ('"' :: []) ++ (("__corrupt_line_").data) ++ natChars n' ++ (("\": null").data)
          else ("null").data) ++
          (if first then [] else [',']) ++ ['\n']
      else
        (' ' :: ' ' :: []) ++ trimChars l ++
          (if first ∨ n' = total then [] else [',']) ++ ['\n']
    piece ++ reconLines isObject total corrupt n' false ls

/-- The full reconstructed text of the second pass. -/
def reconstructText (isObject : Bool) (lines : List (List Char)) (corrupt : List Nat) :
    List Char :=
  (if isObject then ('{' :: '\n' :: []) else ('[' :: '\n' :: [])) ++
    reconLines isObject lines.length corrupt 0 true lines ++
    (if isObject then ['}'] else [']'])

/-- Initial state of the first pass. -/
def initLineSt : LineSt :=
  { scan := { inString := false, stack := [] }, currentLine := [], lineNo := 0,
    warnings := [], corrupt := [] }

/-- `trimmed.startsWith("{") && trimmed.endsWith("}")`. -/
def isObjectShaped (t : List Char) : Bool :=
  (trimChars t).head? = some '{' ∧ (trimChars t).getLast? = some '}'

/-- `trimmed.startsWith("[") && trimmed.endsWith("]")`. -/
def isArrayShaped (t : List Char) : Bool :=
  (trimChars t).head? = some '[' ∧ (trimChars t).getLast? = some ']'

/-- Result of the first pass over the lines of `t`. -/
def linePass (b : Bool) (t : List Char) : LineSt :=
  (splitLines t).foldl (processLine b) initLineSt

/-- The reconstructed document built by the second pass of
`findJsonFragments` on input `t` (`b` is `isObject`). -/
def reconOf (b : Bool) (t : List Char) : List Char :=
  reconstructText b (splitLines t) (linePass b t).corrupt

/-- `findJsonFragments` from `src/lib/json-utils.ts`.  The
`if (extracted)` truthiness test of the source is modelled by matching
on `some`/`none`: on this code path every candidate fragment is
object- or array-shaped, so a non-null extraction result is never a
falsy JavaScript value. -/
def findJsonFragments (t : List Char) :
    Except JsError (Option Json × List Warning) :=
  if trimChars t = [] then .ok (none, [])
  else if MAXLEN < t.length then .error .sizeLimitExceeded
  else
    match jsonParse t with
    | some v => .ok (some v, [])
    | none =>
      if !(isObjectShaped t) && !(isArrayShaped t) then
        match extractJson t with
        | .error e => .error e
        | .ok r => .ok (r, [.invalidJson, .couldNotDetermineStructure])
      else
        match jsonParse (reconOf (isObjectShaped t) t) with
        | some v => .ok (some v, .invalidJson :: (linePass (isObjectShaped t) t).warnings)
        | none =>
          match extractJson t with
          | .error e => .error e
          | .ok (some ex) =>
            .ok (some ex, .invalidJson ::
              ((linePass (isObjectShaped t) t).warnings ++ [.reconstructionFailed]))
          | .ok none =>
            .ok (none, .invalidJson ::
              ((linePass (isObjectShaped t) t).warnings ++ [.couldNotRecover]))

/-!
### `safeStringify` and the serialization model

`safeStringify` is `JSON.stringify(obj, replacer, 2)` where the replacer
substitutes the string `"[Circular Reference]"` for any composite value
already in a per-call `WeakSet`, adding each newly visited composite
value to the set.  Reference identity and cycles cannot live in an
inductive value, so the serializer is modelled over an explicit heap: a
list of nodes addressed by position, composite nodes holding child
addresses.  `renderV` is the plain (tree) pretty-printer matching the
indentation layout of `JSON.stringify(_, _, 2)`; `serVal` is the heap
serializer with the replacer's seen-set threaded through the traversal
exactly as the mutable `WeakSet` is. -/

def spaces (n : Nat) : List Char := List.replicate n ' '

/-- The escaping performed by `JSON.stringify` on string contents. -/
def escapeChar (c : Char) : List Char :=
  if c = '"' then ('\\' :: '"' :: [])
  else if c = '\\' then ('\\' :: '\\' :: [])
  else if c = '\x08' then ('\\' :: 'b' :: [])
  else if c = '\x0c' then ('\\' :: 'f' :: [])
  else if c = '\n' then ('\\' :: 'n' :: [])
  else if c = '\x0d' then ('\\' :: 'r' :: [])
  else if c = '\t' then ('\\' :: 't' :: [])
  else if c.toNat < 32 then
    ('\\' :: 'u' :: '0' :: '0' ::
      (Nat.digitChar (c.toNat / 16)) :: (Nat.digitChar (c.toNat % 16)) :: [])
  else [c]

def escapeStr : List Char → List Char
  | [] => []
  | c :: rest => escapeChar c ++ escapeStr rest

def renderStr (s : List Char) : List Char := '"' :: escapeStr s ++ ['"']

mutual

/-- Output of `JSON.stringify(v, null, 2)` for a tree value `v`, at
current indentation `ind`. -/
def renderV : Nat → Json → List Char
  | _, .null => ("null").data
  | _, .bool true => ("true").data
  | _, .bool false => ("false").data
  | _, .num lex => lex
  | _, .str s => renderStr s
  | _, .arr [] => ('[' :: ']' :: [])
  | ind, .arr (x :: rest) =>
    '[' :: '\n' ::
      (spaces (ind + 2) ++ renderV (ind + 2) x ++ renderTailA (ind + 2) rest ++
        '\n' :: (spaces ind ++ [']']))
  | _, .obj [] => ('{' :: '}' :: [])
  | ind, .obj (m :: rest) =>
    '{' :: '\n' ::
      (spaces (ind + 2) ++ renderMem (ind + 2) m ++ renderTailO (ind + 2) rest ++
        '\n' :: (spaces ind ++ ['}']))

def renderMem : Nat → List Char × Json → List Char
  | ind, m => renderStr m.1 ++ ':' :: ' ' :: renderV ind m.2

def renderTailA : Nat → List Json → List Char
  | _, [] => []
  | ind, x :: rest =>
    ',' :: '\n' :: (spaces ind ++ renderV ind x) ++ renderTailA ind rest

def renderTailO : Nat → List (List Char × Json) → List Char
  | _, [] => []
  | ind, m :: rest =>
    ',' :: '\n' :: (spaces ind ++ renderMem ind m) ++ renderTailO ind rest

end

mutual

/-- Node count of a tree value — the fuel budget a parse of its
rendering needs. -/
def jmeasure : Json → Nat
  | .null => 1
  | .bool _ => 1
  | .num _ => 1
  | .str _ => 1
  | .arr xs => 1 + jmeasureL xs
  | .obj ms => 1 + jmeasureM ms

def jmeasureL : List Json → Nat
  | [] => 0
  | x :: xs => jmeasure x + 1 + jmeasureL xs

def jmeasureM : List (List Char × Json) → Nat
  | [] => 0
  | m :: ms => jmeasure m.2 + 1 + jmeasureM ms

end
mutual

/-- Number of heap nodes the encoding of a tree value occupies — also
the depth bound that makes `serVal`'s fuel sufficient. -/
def hsize : Json → Nat
  | .null => 1
  | .bool _ => 1
  | .num _ => 1
  | .str _ => 1
  | .arr xs => 1 + hsizeL xs
  | .obj ms => 1 + hsizeM ms

def hsizeL : List Json → Nat
  | [] => 0
  | x :: xs => hsize x + hsizeL xs

def hsizeM : List (List Char × Json) → Nat
  | [] => 0
  | m :: ms => hsize m.2 + hsizeM ms

end

/-- Valid number lexeme per the JSON grammar (the lexer consumes all of
it and reproduces it). -/
def numLexOk (s : List Char) : Bool :=
  match lexNumber s with
  | some (l, r) => r.isEmpty && l == s
  | none => false

/-- Well-formed tree values: number lexemes match the grammar and object
keys are unique (the spec data model requires both). -/
inductive Wf : Json → Prop where
  | null : Wf .null
  | bool (b : Bool) : Wf (.bool b)
  | num (lex : List Char) : numLexOk lex = true → Wf (.num lex)
  | str (s : List Char) : Wf (.str s)
  | arr (xs : List Json) : (∀ x ∈ xs, Wf x) → Wf (.arr xs)
  | obj (ms : List (List Char × Json)) : (∀ m ∈ ms, Wf m.2) →
      (ms.map Prod.fst).Nodup → Wf (.obj ms)

/-- Heap nodes: an object graph with reference identity.  Children of
composite nodes are heap addresses. -/
inductive GNode where
  | gnull : GNode
  | gbool (b : Bool) : GNode
  | gnum (lex : List Char) : GNode
  | gstr (s : List Char) : GNode
  | garr (elems : List Nat) : GNode
  | gobj (members : List (List Char × Nat)) : GNode
deriving DecidableEq

abbrev GHeap := List GNode

def isCompositeNode : GNode → Bool
  | .garr _ => true
  | .gobj _ => true
  | _ => false

def nodeRefsBelow (n : GNode) (k : Nat) : Bool :=
  match n with
  | .garr es => es.all (fun e => e < k)
  | .gobj fs => fs.all (fun f => f.2 < k)
  | _ => true

/-- Every child address points into the heap (reference graphs obtained
from live JavaScript objects always satisfy this). -/
def closedHeap (h : GHeap) : Bool := h.all (fun n => nodeRefsBelow n h.length)

/-- The sentinel the replacer substitutes on a revisited node. -/
def circularChars : List Char := ("[Circular Reference]").data

/-- Tail of an array's children: separator, indentation, child; the
seen-set is threaded left to right, as the shared mutable `WeakSet`. -/
def serTailA (sv : List Nat → Nat → Nat → Option (List Char × List Nat)) (ind : Nat) :
    List Nat → List Nat → Option (List Char × List Nat)
  | [], seen => some ([], seen)
  | e :: rest, seen =>
    match sv seen ind e with
    | none => none
    | some (s, seen1) =>
      match serTailA sv ind rest seen1 with
      | none => none
      | some (s2, seen2) => some (',' :: '\n' :: (spaces ind ++ s) ++ s2, seen2)

def serTailO (sv : List Nat → Nat → Nat → Option (List Char × List Nat)) (ind : Nat) :
    List (List Char × Nat) → List Nat → Option (List Char × List Nat)
  | [], seen => some ([], seen)
  | f :: rest, seen =>
    match sv seen ind f.2 with
    | none => none
    | some (s, seen1) =>
      match serTailO sv ind rest seen1 with
      | none => none
      | some (s2, seen2) =>
        some (',' :: '\n' :: (spaces ind ++ renderStr f.1 ++ ':' :: ' ' :: s) ++ s2, seen2)

/-- The serializer at one heap node: the replacer substitutes the
sentinel for a composite node already seen, otherwise records it and
descends.  One unit of fuel per level of descent; since every descent
adds a fresh address to `seen`, `h.length + 1` can never run out on a
closed heap (proved below). -/
def serVal (h : GHeap) : Nat → List Nat → Nat → Nat → Option (List Char × List Nat)
  | 0, _, _, _ => none
  | fuel + 1, seen, ind, id =>
    match h.get? id with
    | none => none
    | some .gnull => some (("null").data, seen)
    | some (.gbool true) => some (("true").data, seen)
    | some (.gbool false) => some (("false").data, seen)
    | some (.gnum lex) => some (lex, seen)
    | some (.gstr s) => some (renderStr s, seen)
    | some (.garr es) =>
      if id ∈ seen then some (renderStr circularChars, seen)
      else
        match es with
        | [] => some (('[' :: ']' :: []), seen ++ [id])
        | e :: rest =>
          match serVal h fuel (seen ++ [id]) (ind + 2) e with
          | none => none
          | some (s1, seen1) =>
            match serTailA (serVal h fuel) (ind + 2) rest seen1 with
            | none => none
            | some (s2, seen2) =>
              some ('[' :: '\n' ::
                (spaces (ind + 2) ++ s1 ++ s2 ++ '\n' :: (spaces ind ++ [']'])), seen2)
    | some (.gobj fs) =>
      if id ∈ seen then some (renderStr circularChars, seen)
      else
        match fs with
        | [] => some (('{' :: '}' :: []), seen ++ [id])
        | f :: rest =>
          match serVal h fuel (seen ++ [id]) (ind + 2) f.2 with
          | none => none
          | some (s1, seen1) =>
            match serTailO (serVal h fuel) (ind + 2) rest seen1 with
            | none => none
            | some (s2, seen2) =>
              some ('{' :: '\n' ::
                (spaces (ind + 2) ++ renderStr f.1 ++ ':' :: ' ' :: s1 ++ s2 ++
                  '\n' :: (spaces ind ++ ['}'])), seen2)

mutual

/-- Encode a tree value into the heap by appending its nodes (children
first); returns the extended heap and the root's address.  All fresh
addresses are distinct, as the identities of a freshly built JavaScript
object tree are. -/
def encodeAux : Json → GHeap → GHeap × Nat
  | .null, h => (h ++ [.gnull], h.length)
  | .bool b, h => (h ++ [.gbool b], h.length)
  | .num lex, h => (h ++ [.gnum lex], h.length)
  | .str s, h => (h ++ [.gstr s], h.length)
  | .arr xs, h =>
    let p := encodeList xs h
    (p.1 ++ [.garr p.2], p.1.length)
  | .obj ms, h =>
    let p := encodeMembers ms h
    (p.1 ++ [.gobj p.2], p.1.length)

def encodeList : List Json → GHeap → GHeap × List Nat
  | [], h => (h, [])
  | x :: rest, h =>
    let p := encodeAux x h
    let q := encodeList rest p.1
    (q.1, p.2 :: q.2)

def encodeMembers : List (List Char × Json) → GHeap → GHeap × List (List Char × Nat)
  | [], h => (h, [])
  | m :: rest, h =>
    let p := encodeAux m.2 h
    let q := encodeMembers rest p.1
    (q.1, (m.1, p.2) :: q.2)

end

/-- `safeStringify` from `src/lib/json-utils.ts`, applied to (the heap
image of) a tree value. -/
def safeStringify (v : Json) : Option (List Char) :=
  let p := encodeAux v []
  (serVal p.1 (p.1.length + 1) [] 0 p.2).map Prod.fst

/-- Continuations after a rendered value inside a stringified document:
end of input, a separator, or the line break before a closing bracket.
None of these characters can extend a number lexeme. -/
def okRest (r : List Char) : Prop :=
  match r.head? with
  | none => True
  | some c => c = ',' ∨ c = '\n' ∨ c = ']' ∨ c = '}'

/-- Number of heap addresses not yet in the seen set — the measure
that shrinks at every descent of `serVal`. -/
def unvisited (h : GHeap) (seen : List Nat) : Nat :=
  ((List.range h.length).filter (fun i => !(decide (i ∈ seen)))).length

/-!
### Basic lemmas about trimming and whitespace
-/

theorem trimChars_eq_nil_iff (t : List Char) : trimChars t = [] ↔ ∀ c ∈ t, isJsWs c := by
  unfold trimChars
  rw [List.reverse_eq_nil_iff, List.dropWhile_eq_nil_iff]
  constructor
  · intro h c hc
    by_cases hw : isJsWs c
    · exact hw
    · exfalso
      have hsplit := List.takeWhile_append_dropWhile (p := isJsWs) (l := t)
      rw [← hsplit] at hc
      rcases List.mem_append.1 hc with h1 | h1
      · exact hw (List.mem_takeWhile_imp h1)
      · exact hw (h c (List.mem_reverse.2 h1))
  · intro h c hc
    exact h c ((List.dropWhile_sublist (p := isJsWs)).subset (List.mem_reverse.1 hc))

theorem parseValue_nil (f : Nat) : parseValue f [] = none := by
  cases f <;> rfl

theorem skipWs_suffix (t : List Char) :
    ∃ pre, t = pre ++ skipWs t ∧ ∀ c ∈ pre, isJsonWs c := by
  induction t with
  | nil => exact ⟨[], rfl, by simp⟩
  | cons c rest ih =>
    by_cases h : isJsonWs c
    · obtain ⟨pre, h1, h2⟩ := ih
      refine ⟨c :: pre, ?_, ?_⟩
      · simp [skipWs, h, ← h1]
      · intro x hx
        rcases List.mem_cons.1 hx with rfl | hx
        · exact h
        · exact h2 x hx
    · refine ⟨[], ?_, by simp⟩
      simp [skipWs, h]

theorem skipWs_head_not_ws (t : List Char) (c : Char) (r : List Char)
    (h : skipWs t = c :: r) : isJsonWs c = false := by
  induction t with
  | nil => simp [skipWs] at h
  | cons x rest ih =>
    rw [skipWs] at h
    by_cases hx : isJsonWs x
    · rw [if_pos hx] at h
      exact ih h
    · rw [if_neg hx] at h
      cases h
      exact Bool.eq_false_iff.2 hx

theorem parseValue_vt_head (f : Nat) (c : Char) (r : List Char)
    (h : c = '\x0b' ∨ c = '\x0c') : parseValue f (c :: r) = none := by
  cases f with
  | zero => rfl
  | succ f => rcases h with rfl | rfl <;> rfl

theorem jsonParse_of_all_ws (t : List Char) (h : ∀ c ∈ t, isJsWs c) :
    jsonParse t = none := by
  unfold jsonParse
  cases hsk : skipWs t with
  | nil => rw [parseValue_nil]
  | cons c r =>
    have hmem : c ∈ t := by
      obtain ⟨pre, h1, _⟩ := skipWs_suffix t
      rw [h1, hsk]
      simp
    have hw := h c hmem
    have hnw := skipWs_head_not_ws t c r hsk
    have hc : c = '\x0b' ∨ c = '\x0c' := by
      simp only [isJsWs, decide_eq_true_eq] at hw
      simp only [isJsonWs] at hnw
      rcases hw with rfl | rfl | rfl | rfl | rfl | rfl <;> simp_all
    rw [parseValue_vt_head _ _ _ hc]

theorem jsonParse_some_trim_ne {t : List Char} {v : Json}
    (h : jsonParse t = some v) : trimChars t ≠ [] := by
  intro hnil
  rw [jsonParse_of_all_ws t ((trimChars_eq_nil_iff t).1 hnil)] at h
  exact Option.noConfusion h

theorem trim_replicate_sp (n : Nat) : trimChars (List.replicate n ' ') = [] :=
  (trimChars_eq_nil_iff _).2 (fun c hc => by rw [List.eq_of_mem_replicate hc]; decide)

theorem extractJson_isOk (t : List Char) (h2 : ¬ MAXLEN < t.length) :
    ∃ r, extractJson t = .ok r := by
  unfold extractJson
  split
  · exact ⟨_, rfl⟩
  · split <;> exact ⟨_, rfl⟩

theorem findJsonFragments_isOk (t : List Char) (h2 : ¬ MAXLEN < t.length) :
    ∃ r, findJsonFragments t = .ok r := by
  obtain ⟨r, hr⟩ := extractJson_isOk t h2
  unfold findJsonFragments
  split
  · exact ⟨_, rfl⟩
  · split
    · exact ⟨_, rfl⟩
    · split
      · rw [hr]
        exact ⟨_, rfl⟩
      · split
        · exact ⟨_, rfl⟩
        · rw [hr]
          cases r <;> exact ⟨_, rfl⟩

/-- C2: for all syntactically valid JSON text `T` (within the size
limit that `recoverJson`'s contract accepts), `findJsonFragments T`
returns the value `JSON.parse` gives on `T` together with an empty
warning list. -/
theorem findJsonFragments_valid_input (t : List Char) (v : Json)
    (hv : jsonParse t = some v) (hlen : t.length ≤ MAXLEN) :
    findJsonFragments t = .ok (some v, []) := by
  have ht := jsonParse_some_trim_ne hv
  unfold findJsonFragments
  rw [if_neg ht, if_neg (Nat.not_lt.2 hlen), hv]

theorem findJsonFragments_valid_input_witness :
    findJsonFragments (("\x7b\"a\":1\x7d").data) =
      .ok (some (Json.obj [(("a").data, Json.num (("1").data))]), []) :=
  findJsonFragments_valid_input _ _ (by rfl) (by decide)

/-- C3 (counterexample): an oversized input consisting only of
whitespace does not raise `SizeLimitExceeded`; it returns normally,
refuting "raises an error if and only if the length exceeds the
configured maximum". -/
theorem findJsonFragments_oversized_ws_no_error :
    findJsonFragments (List.replicate (MAXLEN + 1) ' ') = .ok (none, []) ∧
      MAXLEN < (List.replicate (MAXLEN + 1) ' ').length := by
  constructor
  · unfold findJsonFragments
    rw [if_pos (trim_replicate_sp _)]
  · rw [List.length_replicate]
    omega

/-- C3 (amended): `findJsonFragments` raises an error if and only if
the input's trimmed content is nonempty and its length exceeds the
configured maximum; the error is always `SizeLimitExceeded`, raised by
the guard before any parsing, and no input within the limit ever
raises. -/
theorem findJsonFragments_error_iff (t : List Char) (e : JsError) :
    findJsonFragments t = .error e ↔ (trimChars t ≠ [] ∧ MAXLEN < t.length) := by
  constructor
  · intro h
    by_cases h1 : trimChars t = []
    · unfold findJsonFragments at h
      rw [if_pos h1] at h
      exact Except.noConfusion h
    · by_cases h2 : MAXLEN < t.length
      · exact ⟨h1, h2⟩
      · obtain ⟨r, hr⟩ := findJsonFragments_isOk t h2
        rw [h] at hr
        exact Except.noConfusion hr
  · rintro ⟨h1, h2⟩
    cases e
    unfold findJsonFragments
    rw [if_neg h1, if_pos h2]

/-- C10: an empty or whitespace-only input short-circuits both
`findJsonFragments` (to `(null, [])`) and `extractJson` (to `null`)
before the size guard is consulted, so a whitespace-only input longer
than the configured maximum returns normally instead of raising
`SizeLimitExceeded`. -/
theorem trim_empty_short_circuit :
    (∀ t : List Char, trimChars t = [] →
      findJsonFragments t = .ok (none, []) ∧ extractJson t = .ok none) ∧
    findJsonFragments (List.replicate (MAXLEN + 1) ' ') = .ok (none, []) ∧
    extractJson (List.replicate (MAXLEN + 1) ' ') = .ok none ∧
    MAXLEN < (List.replicate (MAXLEN + 1) ' ').length := by
  have main : ∀ t : List Char, trimChars t = [] →
      findJsonFragments t = .ok (none, []) ∧ extractJson t = .ok none := by
    intro t h
    constructor
    · unfold findJsonFragments
      rw [if_pos h]
    · unfold extractJson
      rw [if_pos h]
  refine ⟨main, (main _ (trim_replicate_sp _)).1, (main _ (trim_replicate_sp _)).2, ?_⟩
  rw [List.length_replicate]
  omega

theorem trim_empty_short_circuit_witness :
    findJsonFragments (("  ").data) = .ok (none, []) ∧
      extractJson (("  ").data) = .ok none :=
  trim_empty_short_circuit.1 (("  ").data) (by decide)

/-- C4 (failing input): the spec's own scenario-3 document — object
shaped, line 2 corrupted, lines 1 and 3 well formed — is returned as
`none` with a terminal could-not-recover warning: the classification
flags lines 1 and 3 instead of line 2, the rebuilt document has a
missing separator after the first entry and a trailing comma, so
reconstruction fails and no `__corrupt_line_<N>` placeholder survives. -/
theorem findJsonFragments_scenario3 :
    findJsonFragments (("\x7b\"a\": 1,\nBROKEN LINE \x7d\n\"b\": 2\x7d").data) =
      .ok (none,
        [.invalidJson, .potentiallyCorrupt 1, .mismatchedBrackets 3,
         .potentiallyCorrupt 3, .couldNotRecover]) ∧
    (linePass true (("\x7b\"a\": 1,\nBROKEN LINE \x7d\n\"b\": 2\x7d").data)).corrupt = [1, 3] :=
  ⟨rfl, rfl⟩

/-- C8 (counterexample): on the bracket-free input `not json at all`
the value is `none` but the terminal warning is the
structure-undetermined one, not the "could not recover any valid JSON"
warning the claim announces. -/
theorem findJsonFragments_prose_terminal :
    findJsonFragments (("not json at all").data) =
      .ok (none, [.invalidJson, .couldNotDetermineStructure]) ∧
    ([Warning.invalidJson, Warning.couldNotDetermineStructure].getLast? ≠
      some Warning.couldNotRecover) :=
  ⟨rfl, by decide⟩

/-- C8 (amended): an unparsable input within the size limit whose
trimmed text starts with neither `{` nor `[` yields the `extractJson`
result (hence `none` when nothing is recoverable) with exactly the
warnings invalid-JSON followed by the terminal
could-not-determine-structure warning. -/
theorem findJsonFragments_undetermined_structure (t : List Char)
    (hp : jsonParse t = none) (h1 : trimChars t ≠ []) (h2 : ¬ MAXLEN < t.length)
    (hh : (trimChars t).head? ≠ some '{') (hh2 : (trimChars t).head? ≠ some '[') :
    ∃ r, extractJson t = .ok r ∧
      findJsonFragments t = .ok (r, [.invalidJson, .couldNotDetermineStructure]) := by
  obtain ⟨r, hr⟩ := extractJson_isOk t h2
  refine ⟨r, hr, ?_⟩
  unfold findJsonFragments
  rw [if_neg h1, if_neg h2, hp]
  have hob : isObjectShaped t = false := by
    unfold isObjectShaped
    simp [hh]
  have har : isArrayShaped t = false := by
    unfold isArrayShaped
    simp [hh2]
  rw [hob, har]
  simp only [Bool.not_false, Bool.and_self, if_pos]
  rw [hr]

theorem findJsonFragments_undetermined_structure_witness :
    ∃ r, extractJson (("not json at all").data) = .ok r ∧
      findJsonFragments (("not json at all").data) =
        .ok (r, [.invalidJson, .couldNotDetermineStructure]) :=
  findJsonFragments_undetermined_structure _ (by rfl) (by decide) (by decide)
    (by decide) (by decide)

/-- C1 (counterexample): two inputs embedding a syntactically valid
JSON object whose text is not among the candidate substrings tried by
`extractJson` — one because a bracket character inside a string literal
is not treated as opaque by the candidate patterns, one because the
patterns only match up to three nesting levels. -/
theorem extractJson_misses_embedded_fragment :
    (jsonParse (("\x7b\"a\": \"\x7d\"\x7d").data) =
        some (Json.obj [(("a").data, Json.str (("\x7d").data))]) ∧
      ("x").data ++ ("\x7b\"a\": \"\x7d\"\x7d").data ++ ("y").data = ("x\x7b\"a\": \"\x7d\"\x7dy").data ∧
      ("\x7b\"a\": \"\x7d\"\x7d").data ∉ candidates (("x\x7b\"a\": \"\x7d\"\x7dy").data) ∧
      extractJson (("x\x7b\"a\": \"\x7d\"\x7dy").data) = .ok none) ∧
    ((jsonParse (("\x7b\"a\":\x7b\"b\":\x7b\"c\":\x7b\"d\":1\x7d\x7d\x7d\x7d").data)).isSome = true ∧
      ("x").data ++ ("\x7b\"a\":\x7b\"b\":\x7b\"c\":\x7b\"d\":1\x7d\x7d\x7d\x7d").data ++ ("y").data =
        ("x\x7b\"a\":\x7b\"b\":\x7b\"c\":\x7b\"d\":1\x7d\x7d\x7d\x7dy").data ∧
      ("\x7b\"a\":\x7b\"b\":\x7b\"c\":\x7b\"d\":1\x7d\x7d\x7d\x7d").data ∉
        candidates (("x\x7b\"a\":\x7b\"b\":\x7b\"c\":\x7b\"d\":1\x7d\x7d\x7d\x7dy").data)) :=
  ⟨⟨rfl, rfl, by decide, rfl⟩, rfl, rfl, by decide⟩

/-- C5 (counterexample): with an array fragment at offset 0 and an
object fragment of equal length later in the text, both valid,
`extractJson` returns the object — the tie is broken by the candidate
pattern order (objects before arrays), not by the earliest start
offset. -/
theorem extractJson_tie_prefers_object :
    extractJson (("[1,2,3] x \x7b\"a\":8\x7d").data) =
      .ok (some (Json.obj [(("a").data, Json.num (("8").data))])) ∧
    candidates (("[1,2,3] x \x7b\"a\":8\x7d").data) =
      [("\x7b\"a\":8\x7d").data, ("[1,2,3]").data] ∧
    jsonParse (("[1,2,3]").data) =
      some (Json.arr [Json.num (("1").data), Json.num (("2").data),
        Json.num (("3").data)]) ∧
    (("[1,2,3] x \x7b\"a\":8\x7d").data).take 7 = ("[1,2,3]").data ∧
    (("[1,2,3]").data).length = (("\x7b\"a\":8\x7d").data).length ∧
    Json.obj [(("a").data, Json.num (("8").data))] ≠
      Json.arr [Json.num (("1").data), Json.num (("2").data), Json.num (("3").data)] :=
  ⟨rfl, rfl, rfl, rfl, rfl, fun h => nomatch h⟩

theorem pick_validated (L : List (List Char)) (acc : List Char × Option Json)
    (v : Json) (h : (L.foldl pickStep acc).2 = some v) :
    acc.2 = some v ∨ ∃ s ∈ L, jsonParse s = some v := by
  induction L generalizing acc with
  | nil => exact .inl h
  | cons m L ih =>
    rw [List.foldl_cons] at h
    rcases ih _ h with h1 | ⟨s, hs, hp⟩
    · unfold pickStep at h1
      split at h1
      · exact .inl h1
      · split at h1
        · next w hw =>
          refine .inr ⟨m, List.mem_cons_self _ _, ?_⟩
          rw [hw]
          simpa using h1
        · exact .inl h1
    · exact .inr ⟨s, List.mem_cons_of_mem _ hs, hp⟩

theorem extractJson_validated (t : List Char) (v : Json)
    (h : extractJson t = .ok (some v)) :
    ∃ s, (s = t ∨ s ∈ candidates t) ∧ jsonParse s = some v := by
  unfold extractJson at h
  split at h
  · simp at h
  · split at h
    · exact Except.noConfusion h
    · split at h
      · next w hw =>
        refine ⟨t, .inl rfl, ?_⟩
        rw [hw]
        simpa using h
      · have h2 : ((candidates t).foldl pickStep ([], none)).2 = some v := by
          simpa using h
        rcases pick_validated _ _ _ h2 with h3 | ⟨s, hs, hp⟩
        · exact Option.noConfusion h3
        · exact ⟨s, .inr hs, hp⟩

theorem findJsonFragments_validated (t : List Char) (v : Json) (ws : List Warning)
    (h : findJsonFragments t = .ok (some v, ws)) :
    ∃ s, (s = t ∨ s ∈ candidates t ∨ s = reconOf (isObjectShaped t) t) ∧
      jsonParse s = some v := by
  unfold findJsonFragments at h
  split at h
  · simp at h
  · split at h
    · exact Except.noConfusion h
    · split at h
      · next w hw =>
        refine ⟨t, .inl rfl, ?_⟩
        rw [hw]
        simp only [Except.ok.injEq, Prod.mk.injEq] at h
        rw [h.1]
      · split at h
        · split at h
          · exact Except.noConfusion h
          · next r hr =>
            simp only [Except.ok.injEq, Prod.mk.injEq] at h
            obtain ⟨s, hor, hp⟩ := extractJson_validated t v (by rw [hr, h.1])
            exact ⟨s, hor.imp id .inl, hp⟩
        · split at h
          · next w hw =>
            refine ⟨reconOf (isObjectShaped t) t, .inr (.inr rfl), ?_⟩
            rw [hw]
            simp only [Except.ok.injEq, Prod.mk.injEq] at h
            rw [h.1]
          · split at h
            · exact Except.noConfusion h
            · next ex hex =>
              simp only [Except.ok.injEq, Prod.mk.injEq] at h
              obtain ⟨s, hor, hp⟩ := extractJson_validated t v (by rw [hex, h.1])
              exact ⟨s, hor.imp id .inl, hp⟩
            · simp at h

/-- C9: every non-`none` value returned by `extractJson` or
`findJsonFragments` is the `JSON.parse` of some text examined during
the call — the whole input, one of the candidate fragments, or the
reconstructed document; the engine never returns an unvalidated
structure. -/
theorem returned_values_validated :
    (∀ t v, extractJson t = .ok (some v) →
      ∃ s, (s = t ∨ s ∈ candidates t) ∧ jsonParse s = some v) ∧
    (∀ t v ws, findJsonFragments t = .ok (some v, ws) →
      ∃ s, (s = t ∨ s ∈ candidates t ∨ s = reconOf (isObjectShaped t) t) ∧
        jsonParse s = some v) :=
  ⟨extractJson_validated, findJsonFragments_validated⟩

theorem returned_values_validated_witness :
    ∃ s, (s = ("\x7b\x7d").data ∨ s ∈ candidates (("\x7b\x7d").data)) ∧
      jsonParse s = some (Json.obj []) :=
  returned_values_validated.1 (("\x7b\x7d").data) (Json.obj []) (by rfl)

theorem regexMatches_mem_of_clean_start (p : List Char) :
    ∀ (f : Nat) (s q : List Char), (∀ c ∈ p, c ≠ '{') → s.head? = some '{' →
      spanAux '{' '}' (s ++ q) 0 = some (s, q) → (p ++ s ++ q).length ≤ f →
      s ∈ regexMatches '{' '}' f (p ++ s ++ q) := by
  induction p with
  | nil =>
    intro f s q _ hs hspan hf
    cases s with
    | nil => exact Option.noConfusion hs
    | cons c s' =>
      have hc : c = '{' := by simpa using hs
      subst hc
      cases f with
      | zero => simp at hf
      | succ f' =>
        simp only [List.nil_append, List.cons_append, regexMatches, if_pos]
        simp only [List.append_eq]
        rw [show ('{' :: s') ++ q = '{' :: (s' ++ q) from rfl] at hspan
        rw [hspan]
        exact List.mem_cons_self _ _
  | cons c p' ih =>
    intro f s q hp hs hspan hf
    have hc : c ≠ '{' := hp c (List.mem_cons_self _ _)
    cases f with
    | zero => simp at hf
    | succ f' =>
      have : ((c :: p') ++ s ++ q) = c :: (p' ++ s ++ q) := by simp
      rw [this]
      rw [this] at hf
      simp only [regexMatches, if_neg hc]
      exact ih f' s q (fun x hx => hp x (List.mem_cons_of_mem _ hx)) hs hspan
        (by simpa using Nat.le_of_succ_le_succ (by simpa using hf))

/-- C1 (amended): the Fragment Extractor's candidates are the leftmost
non-overlapping matches of two fixed-depth string-blind patterns, not
all balanced substrings; an embedded object fragment is guaranteed to
be a candidate when no `{` precedes it and the pattern walk (plain
brace counting, nesting at most three, string contents not opaque)
matches exactly the fragment. -/
theorem extractJson_candidate_guarantee (p s q : List Char)
    (hp : ∀ c ∈ p, c ≠ '{') (hs : s.head? = some '{')
    (hspan : spanAux '{' '}' (s ++ q) 0 = some (s, q)) :
    s ∈ candidates (p ++ s ++ q) := by
  unfold candidates
  exact List.mem_append_left _
    (regexMatches_mem_of_clean_start p _ s q hp hs hspan (Nat.le_refl _))

theorem extractJson_candidate_guarantee_witness :
    ("\x7b\"a\":1\x7d").data ∈
      candidates (("x").data ++ ("\x7b\"a\":1\x7d").data ++ ("y").data) :=
  extractJson_candidate_guarantee (("x").data) (("\x7b\"a\":1\x7d").data) (("y").data)
    (by decide) (by rfl) (by rfl)

theorem pickStep_skip (acc : List Char × Option Json) (m : List Char)
    (hm : m.length ≤ acc.1.length) : pickStep acc m = acc := by
  unfold pickStep
  rw [if_pos hm]

theorem pickStep_invalid (acc : List Char × Option Json) (m : List Char)
    (hm : ¬ m.length ≤ acc.1.length) (hj : jsonParse m = none) :
    pickStep acc m = acc := by
  unfold pickStep
  rw [if_neg hm, hj]

theorem pickStep_update (acc : List Char × Option Json) (m : List Char) (w : Json)
    (hm : ¬ m.length ≤ acc.1.length) (hj : jsonParse m = some w) :
    pickStep acc m = (m, some w) := by
  unfold pickStep
  rw [if_neg hm, hj]

/-- Characterization of the candidate loop: a returned value is the
parse of the first candidate of maximal length among the valid ones —
every valid candidate strictly before the winner is strictly shorter,
every valid candidate after it is no longer. -/
theorem pick_first_longest (L : List (List Char)) :
    ∀ (acc : List Char × Option Json) (v : Json),
      (L.foldl pickStep acc).2 = some v →
      ((L.foldl pickStep acc) = acc ∧ acc.2 = some v ∧
        ∀ c' ∈ L, ∀ v', jsonParse c' = some v' → c'.length ≤ acc.1.length) ∨
      (∃ l1 c l2, L = l1 ++ c :: l2 ∧ jsonParse c = some v ∧
        (L.foldl pickStep acc).1 = c ∧ acc.1.length < c.length ∧
        (∀ c' ∈ l1, ∀ v', jsonParse c' = some v' → c'.length < c.length) ∧
        (∀ c' ∈ l2, ∀ v', jsonParse c' = some v' → c'.length ≤ c.length)) := by
  induction L with
  | nil =>
    intro acc v h
    exact .inl ⟨rfl, h, by simp⟩
  | cons m L ih =>
    intro acc v h
    rw [List.foldl_cons] at h
    by_cases hm : m.length ≤ acc.1.length
    · have hp := pickStep_skip acc m hm
      rw [hp] at h
      rcases ih acc v h with ⟨heq, hval, hbound⟩ | ⟨l1, c, l2, hsplit, hc, hres, hlen, hl1, hl2⟩
      · refine .inl ⟨?_, hval, ?_⟩
        · rw [List.foldl_cons, hp, heq]
        · intro c' hc' v' hv'
          rcases List.mem_cons.1 hc' with rfl | hc'
          · exact hm
          · exact hbound c' hc' v' hv'
      · refine .inr ⟨m :: l1, c, l2, by rw [hsplit]; rfl, hc, ?_, hlen, ?_, hl2⟩
        · rw [List.foldl_cons, hp, hres]
        · intro c' hc' v' hv'
          rcases List.mem_cons.1 hc' with rfl | hc'
          · exact Nat.lt_of_le_of_lt hm hlen
          · exact hl1 c' hc' v' hv'
    · cases hjm : jsonParse m with
      | none =>
        have hp := pickStep_invalid acc m hm hjm
        rw [hp] at h
        rcases ih acc v h with ⟨heq, hval, hbound⟩ | ⟨l1, c, l2, hsplit, hc, hres, hlen, hl1, hl2⟩
        · refine .inl ⟨?_, hval, ?_⟩
          · rw [List.foldl_cons, hp, heq]
          · intro c' hc' v' hv'
            rcases List.mem_cons.1 hc' with rfl | hc'
            · rw [hjm] at hv'
              exact Option.noConfusion hv'
            · exact hbound c' hc' v' hv'
        · refine .inr ⟨m :: l1, c, l2, by rw [hsplit]; rfl, hc, ?_, hlen, ?_, hl2⟩
          · rw [List.foldl_cons, hp, hres]
          · intro c' hc' v' hv'
            rcases List.mem_cons.1 hc' with rfl | hc'
            · rw [hjm] at hv'
              exact Option.noConfusion hv'
            · exact hl1 c' hc' v' hv'
      | some w =>
        have hp := pickStep_update acc m w hm hjm
        rw [hp] at h
        rcases ih _ v h with ⟨heq, hval, hbound⟩ | ⟨l1, c, l2, hsplit, hc, hres, hlen, hl1, hl2⟩
        · refine .inr ⟨[], m, L, rfl, ?_, ?_, Nat.lt_of_not_le hm, by simp, ?_⟩
          · rw [hjm]
            simpa using hval
          · rw [List.foldl_cons, hp, heq]
          · intro c' hc' v' hv'
            simpa using hbound c' hc' v' hv'
        · refine .inr ⟨m :: l1, c, l2, by rw [hsplit]; rfl, hc, ?_,
            Nat.lt_trans (Nat.lt_of_not_le hm) hlen, ?_, hl2⟩
          · rw [List.foldl_cons, hp, hres]
          · intro c' hc' v' hv'
            rcases List.mem_cons.1 hc' with rfl | hc'
            · simpa using hlen
            · exact hl1 c' hc' v' hv'

/-- C5 (amended): when `extractJson` falls through to the candidate
loop, the returned value is the parse of the candidate with maximal
length among the candidates that pass strict parsing, and a tie in
length is broken by position in the candidate list — all object-pattern
matches (in text order) come before all array-pattern matches (in text
order) — not by start offset in the text. -/
theorem extractJson_first_longest_valid (t : List Char) (v : Json)
    (h : extractJson t = .ok (some v)) (hwhole : jsonParse t = none) :
    ∃ l1 c l2, candidates t = l1 ++ c :: l2 ∧ jsonParse c = some v ∧
      (∀ c' ∈ l1, ∀ v', jsonParse c' = some v' → c'.length < c.length) ∧
      (∀ c' ∈ l2, ∀ v', jsonParse c' = some v' → c'.length ≤ c.length) := by
  unfold extractJson at h
  split at h
  · simp at h
  · split at h
    · exact Except.noConfusion h
    · split at h
      · next w hw =>
        rw [hwhole] at hw
        exact Option.noConfusion hw
      · have h2 : ((candidates t).foldl pickStep ([], none)).2 = some v := by
          simpa using h
        rcases pick_first_longest _ _ _ h2 with ⟨_, hval, _⟩ |
          ⟨l1, c, l2, hsplit, hc, _, _, hl1, hl2⟩
        · exact Option.noConfusion hval
        · exact ⟨l1, c, l2, hsplit, hc, hl1, hl2⟩

theorem extractJson_first_longest_valid_witness :
    ∃ l1 c l2, candidates (("x\x7b\"a\":1\x7d").data) = l1 ++ c :: l2 ∧
      jsonParse c = some (Json.obj [(("a").data, Json.num (("1").data))]) ∧
      (∀ c' ∈ l1, ∀ v', jsonParse c' = some v' → c'.length < c.length) ∧
      (∀ c' ∈ l2, ∀ v', jsonParse c' = some v' → c'.length ≤ c.length) :=
  extractJson_first_longest_valid (("x\x7b\"a\":1\x7d").data)
    (Json.obj [(("a").data, Json.num (("1").data))]) (by rfl) (by rfl)

/-!
### Termination and sentinel behaviour of the safe serializer (C7)
-/

theorem filter_length_lt_of_imp {l : List Nat} {p q : Nat → Bool}
    (himp : ∀ x, p x = true → q x = true) (a : Nat) (hal : a ∈ l)
    (hpa : p a = false) (hqa : q a = true) :
    (l.filter p).length < (l.filter q).length := by
  induction l with
  | nil => cases hal
  | cons x xs ih =>
    rcases List.mem_cons.1 hal with rfl | hal
    · simp only [List.filter_cons, hpa, hqa, if_neg, Bool.false_eq_true,
        not_false_eq_true, if_true]
      exact Nat.lt_succ_of_le ((List.monotone_filter_right xs himp).length_le)
    · cases hpx : p x with
      | true =>
        simp only [List.filter_cons, hpx, himp x hpx, if_true]
        exact Nat.succ_lt_succ (ih hal)
      | false =>
        cases hqx : q x with
        | true =>
          simp only [List.filter_cons, hpx, hqx, Bool.false_eq_true,
            not_false_eq_true, if_neg, if_true]
          exact Nat.lt_succ_of_lt (ih hal)
        | false =>
          simp only [List.filter_cons, hpx, hqx, Bool.false_eq_true,
            not_false_eq_true, if_neg]
          exact ih hal

theorem unvisited_le_of_subset (h : GHeap) (s1 s2 : List Nat)
    (hsub : ∀ x ∈ s1, x ∈ s2) : unvisited h s2 ≤ unvisited h s1 := by
  unfold unvisited
  refine (List.monotone_filter_right _ ?_).length_le
  intro a ha
  simp only [Bool.not_eq_true', decide_eq_false_iff_not] at ha ⊢
  exact fun hmem => ha (hsub a hmem)

theorem unvisited_lt_append (h : GHeap) (seen : List Nat) (id : Nat)
    (hid : id < h.length) (hnot : id ∉ seen) :
    unvisited h (seen ++ [id]) < unvisited h seen := by
  unfold unvisited
  refine filter_length_lt_of_imp ?_ id (List.mem_range.2 hid) ?_ ?_
  · intro x hx
    simp only [Bool.not_eq_true', decide_eq_false_iff_not, List.mem_append,
      List.mem_singleton] at hx ⊢
    exact fun hm => hx (Or.inl hm)
  · simp
  · simpa using hnot

theorem unvisited_le_length (h : GHeap) (seen : List Nat) :
    unvisited h seen ≤ h.length := by
  unfold unvisited
  calc ((List.range h.length).filter _).length ≤ (List.range h.length).length :=
        (List.filter_sublist _).length_le
    _ = h.length := List.length_range _

theorem unvisited_nil (h : GHeap) : unvisited h [] = h.length := by
  unfold unvisited
  simp

/-- Seen-set growth of the threaded serializer: the output seen set
contains the input one, and everything new is a valid heap address. -/
theorem serVal_seen_mono (h : GHeap) :
    ∀ (fuel : Nat) (seen : List Nat) (ind id : Nat) (s : List Char)
      (seen' : List Nat), serVal h fuel seen ind id = some (s, seen') →
      (∀ x ∈ seen, x ∈ seen') ∧ (∀ x ∈ seen', x ∈ seen ∨ x < h.length) := by
  intro fuel
  induction fuel with
  | zero => intro seen ind id s seen' hh; exact Option.noConfusion hh
  | succ fuel ih =>
    have comp : ∀ (sa sb sc : List Nat),
        ((∀ x ∈ sa, x ∈ sb) ∧ (∀ x ∈ sb, x ∈ sa ∨ x < h.length)) →
        ((∀ x ∈ sb, x ∈ sc) ∧ (∀ x ∈ sc, x ∈ sb ∨ x < h.length)) →
        ((∀ x ∈ sa, x ∈ sc) ∧ (∀ x ∈ sc, x ∈ sa ∨ x < h.length)) := by
      intro sa sb sc ⟨m1, b1⟩ ⟨m2, b2⟩
      refine ⟨fun x hx => m2 x (m1 x hx), fun x hx => ?_⟩
      rcases b2 x hx with hx1 | hlt
      · exact b1 x hx1
      · exact Or.inr hlt
    have hrefl : ∀ (s2 : List Nat), (∀ x ∈ s2, x ∈ s2) ∧
        (∀ x ∈ s2, x ∈ s2 ∨ x < h.length) :=
      fun s2 => ⟨fun x hx => hx, fun x hx => Or.inl hx⟩
    have tailA : ∀ (es : List Nat) (seen1 : List Nat) (ind : Nat) (s2 : List Char)
        (seen2 : List Nat), serTailA (serVal h fuel) ind es seen1 = some (s2, seen2) →
        (∀ x ∈ seen1, x ∈ seen2) ∧ (∀ x ∈ seen2, x ∈ seen1 ∨ x < h.length) := by
      intro es
      induction es with
      | nil =>
        intro seen1 ind s2 seen2 hh
        simp only [serTailA, Option.some.injEq, Prod.mk.injEq] at hh
        rw [← hh.2]
        exact hrefl seen1
      | cons e rest ihe =>
        intro seen1 ind s2 seen2 hh
        rw [serTailA] at hh
        cases h1 : serVal h fuel seen1 ind e with
        | none => rw [h1] at hh; exact Option.noConfusion hh
        | some p1 =>
          obtain ⟨q1, q2⟩ := p1
          rw [h1] at hh
          dsimp only at hh
          cases h2 : serTailA (serVal h fuel) ind rest q2 with
          | none => rw [h2] at hh; exact Option.noConfusion hh
          | some p2 =>
            obtain ⟨r1, r2⟩ := p2
            rw [h2] at hh
            dsimp only at hh
            simp only [Option.some.injEq, Prod.mk.injEq] at hh
            rw [← hh.2]
            exact comp _ _ _ (ih seen1 ind e q1 q2 h1) (ihe q2 ind r1 r2 h2)
    have tailO : ∀ (fs : List (List Char × Nat)) (seen1 : List Nat) (ind : Nat)
        (s2 : List Char) (seen2 : List Nat),
        serTailO (serVal h fuel) ind fs seen1 = some (s2, seen2) →
        (∀ x ∈ seen1, x ∈ seen2) ∧ (∀ x ∈ seen2, x ∈ seen1 ∨ x < h.length) := by
      intro fs
      induction fs with
      | nil =>
        intro seen1 ind s2 seen2 hh
        simp only [serTailO, Option.some.injEq, Prod.mk.injEq] at hh
        rw [← hh.2]
        exact hrefl seen1
      | cons f rest ihe =>
        intro seen1 ind s2 seen2 hh
        rw [serTailO] at hh
        cases h1 : serVal h fuel seen1 ind f.2 with
        | none => rw [h1] at hh; exact Option.noConfusion hh
        | some p1 =>
          obtain ⟨q1, q2⟩ := p1
          rw [h1] at hh
          dsimp only at hh
          cases h2 : serTailO (serVal h fuel) ind rest q2 with
          | none => rw [h2] at hh; exact Option.noConfusion hh
          | some p2 =>
            obtain ⟨r1, r2⟩ := p2
            rw [h2] at hh
            dsimp only at hh
            simp only [Option.some.injEq, Prod.mk.injEq] at hh
            rw [← hh.2]
            exact comp _ _ _ (ih seen1 ind f.2 q1 q2 h1) (ihe q2 ind r1 r2 h2)
    intro seen ind id s seen' hh
    rw [serVal] at hh
    cases hget : h.get? id with
    | none => rw [hget] at hh; exact Option.noConfusion hh
    | some n =>
      rw [hget] at hh
      have hid : id < h.length := (List.get?_eq_some.1 hget).1
      have hone : (∀ x ∈ seen, x ∈ seen ++ [id]) ∧
          (∀ x ∈ seen ++ [id], x ∈ seen ∨ x < h.length) := by
        refine ⟨fun x hx => List.mem_append_left _ hx, fun x hx => ?_⟩
        rcases List.mem_append.1 hx with hx | hx
        · exact Or.inl hx
        · rw [List.mem_singleton.1 hx]
          exact Or.inr hid
      cases n with
      | gnull =>
        dsimp only at hh
        simp only [Option.some.injEq, Prod.mk.injEq] at hh
        rw [← hh.2]
        exact hrefl seen
      | gbool b =>
        cases b <;>
          (dsimp only at hh; simp only [Option.some.injEq, Prod.mk.injEq] at hh; rw [← hh.2];
            exact hrefl seen)
      | gnum lex =>
        dsimp only at hh
        simp only [Option.some.injEq, Prod.mk.injEq] at hh
        rw [← hh.2]
        exact hrefl seen
      | gstr s0 =>
        dsimp only at hh
        simp only [Option.some.injEq, Prod.mk.injEq] at hh
        rw [← hh.2]
        exact hrefl seen
      | garr es =>
        dsimp only at hh
        by_cases hin : id ∈ seen
        · rw [if_pos hin] at hh
          simp only [Option.some.injEq, Prod.mk.injEq] at hh
          rw [← hh.2]
          exact hrefl seen
        · rw [if_neg hin] at hh
          cases es with
          | nil =>
            dsimp only at hh
            simp only [Option.some.injEq, Prod.mk.injEq] at hh
            rw [← hh.2]
            exact hone
          | cons e rest =>
            dsimp only at hh
            cases h1 : serVal h fuel (seen ++ [id]) (ind + 2) e with
            | none => rw [h1] at hh; exact Option.noConfusion hh
            | some p1 =>
              obtain ⟨q1, q2⟩ := p1
              rw [h1] at hh
              dsimp only at hh
              cases h2 : serTailA (serVal h fuel) (ind + 2) rest q2 with
              | none => rw [h2] at hh; exact Option.noConfusion hh
              | some p2 =>
                obtain ⟨r1, r2⟩ := p2
                rw [h2] at hh
                dsimp only at hh
                simp only [Option.some.injEq, Prod.mk.injEq] at hh
                rw [← hh.2]
                exact comp _ _ _ (comp _ _ _ hone
                  (ih (seen ++ [id]) (ind + 2) e q1 q2 h1))
                  (tailA rest q2 (ind + 2) r1 r2 h2)
      | gobj fs =>
        dsimp only at hh
        by_cases hin : id ∈ seen
        · rw [if_pos hin] at hh
          simp only [Option.some.injEq, Prod.mk.injEq] at hh
          rw [← hh.2]
          exact hrefl seen
        · rw [if_neg hin] at hh
          cases fs with
          | nil =>
            dsimp only at hh
            simp only [Option.some.injEq, Prod.mk.injEq] at hh
            rw [← hh.2]
            exact hone
          | cons f rest =>
            dsimp only at hh
            cases h1 : serVal h fuel (seen ++ [id]) (ind + 2) f.2 with
            | none => rw [h1] at hh; exact Option.noConfusion hh
            | some p1 =>
              obtain ⟨q1, q2⟩ := p1
              rw [h1] at hh
              dsimp only at hh
              cases h2 : serTailO (serVal h fuel) (ind + 2) rest q2 with
              | none => rw [h2] at hh; exact Option.noConfusion hh
              | some p2 =>
                obtain ⟨r1, r2⟩ := p2
                rw [h2] at hh
                dsimp only at hh
                simp only [Option.some.injEq, Prod.mk.injEq] at hh
                rw [← hh.2]
                exact comp _ _ _ (comp _ _ _ hone
                  (ih (seen ++ [id]) (ind + 2) f.2 q1 q2 h1))
                  (tailO rest q2 (ind + 2) r1 r2 h2)

theorem serVal_isSome (h : GHeap) (hclosed : closedHeap h = true) :
    ∀ (fuel : Nat) (seen : List Nat) (ind id : Nat), id < h.length →
      unvisited h seen < fuel → (serVal h fuel seen ind id).isSome := by
  intro fuel
  induction fuel with
  | zero => intro seen ind id _ hm; exact absurd hm (Nat.not_lt_zero _)
  | succ fuel ih =>
    have tailA : ∀ (es : List Nat) (seen1 : List Nat) (ind : Nat),
        (∀ e ∈ es, e < h.length) → unvisited h seen1 < fuel →
        (serTailA (serVal h fuel) ind es seen1).isSome := by
      intro es
      induction es with
      | nil => intro seen1 ind _ _; simp [serTailA]
      | cons e rest ihe =>
        intro seen1 ind hes hm
        rw [serTailA]
        have h1 := ih seen1 ind e (hes e (List.mem_cons_self _ _)) hm
        cases hv : serVal h fuel seen1 ind e with
        | none => rw [hv] at h1; exact absurd h1 (by simp)
        | some p1 =>
          obtain ⟨q1, q2⟩ := p1
          dsimp only
          have hsub := (serVal_seen_mono h fuel seen1 ind e q1 q2 hv).1
          have hm2 : unvisited h q2 < fuel :=
            Nat.lt_of_le_of_lt (unvisited_le_of_subset h seen1 q2 hsub) hm
          have h2 := ihe q2 ind (fun x hx => hes x (List.mem_cons_of_mem _ hx)) hm2
          cases h2' : serTailA (serVal h fuel) ind rest q2 with
          | none => rw [h2'] at h2; exact absurd h2 (by simp)
          | some p2 =>
            obtain ⟨r1, r2⟩ := p2
            simp
    have tailO : ∀ (fs : List (List Char × Nat)) (seen1 : List Nat) (ind : Nat),
        (∀ f ∈ fs, f.2 < h.length) → unvisited h seen1 < fuel →
        (serTailO (serVal h fuel) ind fs seen1).isSome := by
      intro fs
      induction fs with
      | nil => intro seen1 ind _ _; simp [serTailO]
      | cons f rest ihe =>
        intro seen1 ind hes hm
        rw [serTailO]
        have h1 := ih seen1 ind f.2 (hes f (List.mem_cons_self _ _)) hm
        cases hv : serVal h fuel seen1 ind f.2 with
        | none => rw [hv] at h1; exact absurd h1 (by simp)
        | some p1 =>
          obtain ⟨q1, q2⟩ := p1
          dsimp only
          have hsub := (serVal_seen_mono h fuel seen1 ind f.2 q1 q2 hv).1
          have hm2 : unvisited h q2 < fuel :=
            Nat.lt_of_le_of_lt (unvisited_le_of_subset h seen1 q2 hsub) hm
          have h2 := ihe q2 ind (fun x hx => hes x (List.mem_cons_of_mem _ hx)) hm2
          cases h2' : serTailO (serVal h fuel) ind rest q2 with
          | none => rw [h2'] at h2; exact absurd h2 (by simp)
          | some p2 =>
            obtain ⟨r1, r2⟩ := p2
            simp
    intro seen ind id hid hm
    rw [serVal]
    cases hget : h.get? id with
    | none => exact absurd (List.get?_eq_none.1 hget) (Nat.not_le.2 hid)
    | some n =>
      have hrefs : nodeRefsBelow n h.length = true := by
        have hmem : n ∈ h := List.get?_mem hget
        exact List.all_eq_true.1 hclosed n hmem
      cases n with
      | gnull => simp
      | gbool b => cases b <;> simp
      | gnum lex => simp
      | gstr s0 => simp
      | garr es =>
        dsimp only
        by_cases hin : id ∈ seen
        · rw [if_pos hin]
          simp
        · rw [if_neg hin]
          cases es with
          | nil => simp
          | cons e rest =>
            have hm' : unvisited h (seen ++ [id]) < fuel :=
              Nat.lt_of_lt_of_le (unvisited_lt_append h seen id hid hin)
                (Nat.lt_succ_iff.1 hm)
            have hes : ∀ x ∈ e :: rest, x < h.length := by
              intro x hx
              simp only [nodeRefsBelow, List.all_eq_true] at hrefs
              exact of_decide_eq_true (hrefs x hx)
            have h1 := ih (seen ++ [id]) (ind + 2) e (hes e (List.mem_cons_self _ _)) hm'
            cases hv : serVal h fuel (seen ++ [id]) (ind + 2) e with
            | none => rw [hv] at h1; exact absurd h1 (by simp)
            | some p1 =>
              obtain ⟨q1, q2⟩ := p1
              dsimp only
              have hsub := (serVal_seen_mono h fuel (seen ++ [id]) (ind + 2) e q1 q2 hv).1
              have hm2 : unvisited h q2 < fuel :=
                Nat.lt_of_le_of_lt (unvisited_le_of_subset h (seen ++ [id]) q2 hsub) hm'
              have h2 := tailA rest q2 (ind + 2)
                (fun x hx => hes x (List.mem_cons_of_mem _ hx)) hm2
              cases h2' : serTailA (serVal h fuel) (ind + 2) rest q2 with
              | none => rw [h2'] at h2; exact absurd h2 (by simp)
              | some p2 =>
                obtain ⟨r1, r2⟩ := p2
                simp [hv, h2']
      | gobj fs =>
        dsimp only
        by_cases hin : id ∈ seen
        · rw [if_pos hin]
          simp
        · rw [if_neg hin]
          cases fs with
          | nil => simp
          | cons f rest =>
            have hm' : unvisited h (seen ++ [id]) < fuel :=
              Nat.lt_of_lt_of_le (unvisited_lt_append h seen id hid hin)
                (Nat.lt_succ_iff.1 hm)
            have hes : ∀ x ∈ f :: rest, x.2 < h.length := by
              intro x hx
              simp only [nodeRefsBelow, List.all_eq_true] at hrefs
              exact of_decide_eq_true (hrefs x hx)
            have h1 := ih (seen ++ [id]) (ind + 2) f.2 (hes f (List.mem_cons_self _ _)) hm'
            cases hv : serVal h fuel (seen ++ [id]) (ind + 2) f.2 with
            | none => rw [hv] at h1; exact absurd h1 (by simp)
            | some p1 =>
              obtain ⟨q1, q2⟩ := p1
              dsimp only
              have hsub := (serVal_seen_mono h fuel (seen ++ [id]) (ind + 2) f.2 q1 q2 hv).1
              have hm2 : unvisited h q2 < fuel :=
                Nat.lt_of_le_of_lt (unvisited_le_of_subset h (seen ++ [id]) q2 hsub) hm'
              have h2 := tailO rest q2 (ind + 2)
                (fun x hx => hes x (List.mem_cons_of_mem _ hx)) hm2
              cases h2' : serTailO (serVal h fuel) (ind + 2) rest q2 with
              | none => rw [h2'] at h2; exact absurd h2 (by simp)
              | some p2 =>
                obtain ⟨r1, r2⟩ := p2
                simp [hv, h2']

/-- C7: the safe serializer terminates on every finite heap graph,
cyclic or not — fuel one more than the heap size never runs out on a
closed heap, because every descent adds a fresh address to the per-call
seen set — and whenever a composite node already in the seen set is
revisited it immediately yields the fixed sentinel string
`"[Circular Reference]"` instead of recursing. -/
theorem safeStringify_terminates :
    (∀ (h : GHeap) (ind id : Nat), closedHeap h = true → id < h.length →
      (serVal h (h.length + 1) [] ind id).isSome) ∧
    (∀ (h : GHeap) (fuel : Nat) (seen : List Nat) (ind id : Nat) (n : GNode),
      h.get? id = some n → isCompositeNode n = true → id ∈ seen →
      serVal h (fuel + 1) seen ind id = some (renderStr circularChars, seen)) := by
  constructor
  · intro h ind id hc hid
    exact serVal_isSome h hc (h.length + 1) [] ind id hid
      (by rw [unvisited_nil]; omega)
  · intro h fuel seen ind id n hget hcomp hin
    rw [serVal, hget]
    cases n with
    | gnull => simp [isCompositeNode] at hcomp
    | gbool b => simp [isCompositeNode] at hcomp
    | gnum lex => simp [isCompositeNode] at hcomp
    | gstr s0 => simp [isCompositeNode] at hcomp
    | garr es =>
      dsimp only
      rw [if_pos hin]
    | gobj fs =>
      dsimp only
      rw [if_pos hin]

theorem safeStringify_terminates_witness :
    (serVal [GNode.gobj [(("self").data, 0)]] 2 [] 0 0).isSome ∧
    serVal [GNode.gobj [(("self").data, 0)]] 1 [0] 0 0 =
      some (renderStr circularChars, [0]) :=
  ⟨safeStringify_terminates.1 [GNode.gobj [(("self").data, 0)]] 0 0
      (by decide) (by decide),
    safeStringify_terminates.2 [GNode.gobj [(("self").data, 0)]] 0 [0] 0 0
      (GNode.gobj [(("self").data, 0)]) (by rfl) (by rfl) (by decide)⟩

/-!
### Round-trip of the serialized output through the strict parser (C6)
-/

theorem psbF_plain (f : Nat) (c : Char) (h1 : c ≠ '"') (h2 : c ≠ '\\')
    (hlt : ¬ c.toNat < 32) (Y : List Char) :
    parseStringBodyF (f + 1) (c :: Y) =
      (parseStringBodyF f Y).map (fun p => (c :: p.1, p.2)) := by
  simp only [parseStringBodyF]
  rw [if_neg h1, if_neg h2, if_neg hlt]

theorem psbF_escape_step (f : Nat) (ch : Char) (E Y : List Char)
    (he : parseEscape (E ++ Y) = some (ch, Y)) :
    parseStringBodyF (f + 1) ('\\' :: (E ++ Y)) =
      (parseStringBodyF f Y).map (fun p => (ch :: p.1, p.2)) := by
  simp only [parseStringBodyF, if_true]
  rw [he]
  rfl

theorem hexVal_digitChar (k : Nat) (hk : k < 16) :
    hexVal (Nat.digitChar k) = some k := by
  interval_cases k <;> rfl

theorem parseEscape_unicode (d1 d2 d3 d4 : Char) (k1 k2 k3 k4 : Nat)
    (h1 : hexVal d1 = some k1) (h2 : hexVal d2 = some k2)
    (h3 : hexVal d3 = some k3) (h4 : hexVal d4 = some k4)
    (hlow : ((k1 * 16 + k2) * 16 + k3) * 16 + k4 < 0xd800) (Y : List Char) :
    parseEscape ('u' :: d1 :: d2 :: d3 :: d4 :: Y) =
      some (Char.ofNat (((k1 * 16 + k2) * 16 + k3) * 16 + k4), Y) := by
  have hp4 : parseHex4 d1 d2 d3 d4 = some (((k1 * 16 + k2) * 16 + k3) * 16 + k4) := by
    simp [parseHex4, h1, h2, h3, h4]
  simp only [parseEscape, if_true]
  rw [hp4]
  dsimp only
  rw [if_pos (Or.inl hlow)]
  rfl

theorem escapeChar_len_pos (c : Char) : 1 ≤ (escapeChar c).length := by
  unfold escapeChar
  repeat' split
  all_goals simp

theorem parseStringBodyF_escape (s : List Char) :
    ∀ (f : Nat) (rest : List Char), s.length + 1 ≤ f →
      parseStringBodyF f (escapeStr s ++ '"' :: rest) = some (s, rest) := by
  induction s with
  | nil =>
    intro f rest hf
    obtain ⟨f', rfl⟩ : ∃ f', f = f' + 1 := ⟨f - 1, by omega⟩
    simp only [parseStringBodyF, escapeStr, List.nil_append]
    rfl
  | cons c cs ih =>
    intro f rest hf
    obtain ⟨f', rfl⟩ : ∃ f', f = f' + 1 := ⟨f - 1, by omega⟩
    have hf' : cs.length + 1 ≤ f' := by
      simp only [List.length_cons] at hf
      omega
    rw [show escapeStr (c :: cs) = escapeChar c ++ escapeStr cs from rfl,
      List.append_assoc]
    by_cases h1 : c = '"'
    · subst h1
      rw [show escapeChar '"' ++ (escapeStr cs ++ '"' :: rest) =
        '\\' :: (('"' :: []) ++ (escapeStr cs ++ '"' :: rest)) from rfl]
      rw [psbF_escape_step f' '"' ('"' :: []) (escapeStr cs ++ '"' :: rest) rfl, ih f' rest hf']
      rfl
    by_cases h2 : c = '\\'
    · subst h2
      rw [show escapeChar '\\' ++ (escapeStr cs ++ '"' :: rest) =
        '\\' :: (('\\' :: []) ++ (escapeStr cs ++ '"' :: rest)) from rfl]
      rw [psbF_escape_step f' '\\' ('\\' :: []) (escapeStr cs ++ '"' :: rest) rfl, ih f' rest hf']
      rfl
    by_cases h3 : c = '\x08'
    · subst h3
      rw [show escapeChar '\x08' ++ (escapeStr cs ++ '"' :: rest) =
        '\\' :: (('b' :: []) ++ (escapeStr cs ++ '"' :: rest)) from rfl]
      rw [psbF_escape_step f' '\x08' ('b' :: []) (escapeStr cs ++ '"' :: rest) rfl, ih f' rest hf']
      rfl
    by_cases h4 : c = '\x0c'
    · subst h4
      rw [show escapeChar '\x0c' ++ (escapeStr cs ++ '"' :: rest) =
        '\\' :: (('f' :: []) ++ (escapeStr cs ++ '"' :: rest)) from rfl]
      rw [psbF_escape_step f' '\x0c' ('f' :: []) (escapeStr cs ++ '"' :: rest) rfl, ih f' rest hf']
      rfl
    by_cases h5 : c = '\n'
    · subst h5
      rw [show escapeChar '\n' ++ (escapeStr cs ++ '"' :: rest) =
        '\\' :: (('n' :: []) ++ (escapeStr cs ++ '"' :: rest)) from rfl]
      rw [psbF_escape_step f' '\n' ('n' :: []) (escapeStr cs ++ '"' :: rest) rfl, ih f' rest hf']
      rfl
    by_cases h6 : c = '\x0d'
    · subst h6
      rw [show escapeChar '\x0d' ++ (escapeStr cs ++ '"' :: rest) =
        '\\' :: (('r' :: []) ++ (escapeStr cs ++ '"' :: rest)) from rfl]
      rw [psbF_escape_step f' '\x0d' ('r' :: []) (escapeStr cs ++ '"' :: rest) rfl, ih f' rest hf']
      rfl
    by_cases h7 : c = '\t'
    · subst h7
      rw [show escapeChar '\t' ++ (escapeStr cs ++ '"' :: rest) =
        '\\' :: (('t' :: []) ++ (escapeStr cs ++ '"' :: rest)) from rfl]
      rw [psbF_escape_step f' '\t' ('t' :: []) (escapeStr cs ++ '"' :: rest) rfl, ih f' rest hf']
      rfl
    by_cases hlt : c.toNat < 32
    · have he : escapeChar c = '\\' :: 'u' :: '0' :: '0' ::
          (Nat.digitChar (c.toNat / 16)) :: (Nat.digitChar (c.toNat % 16)) :: [] := by
        unfold escapeChar
        rw [if_neg h1, if_neg h2, if_neg h3, if_neg h4, if_neg h5, if_neg h6,
          if_neg h7, if_pos hlt]
      have hesc : parseEscape (('u' :: '0' :: '0' ::
          (Nat.digitChar (c.toNat / 16)) :: (Nat.digitChar (c.toNat % 16)) :: []) ++
            (escapeStr cs ++ '"' :: rest)) = some (c, escapeStr cs ++ '"' :: rest) := by
        rw [show ('u' :: '0' :: '0' :: (Nat.digitChar (c.toNat / 16)) ::
            (Nat.digitChar (c.toNat % 16)) :: []) ++ (escapeStr cs ++ '"' :: rest) =
          'u' :: '0' :: '0' :: (Nat.digitChar (c.toNat / 16)) ::
            (Nat.digitChar (c.toNat % 16)) :: (escapeStr cs ++ '"' :: rest) from rfl]
        rw [parseEscape_unicode '0' '0' (Nat.digitChar (c.toNat / 16))
          (Nat.digitChar (c.toNat % 16)) 0 0 (c.toNat / 16) (c.toNat % 16) rfl rfl
          (hexVal_digitChar _ (by omega)) (hexVal_digitChar _ (by omega)) (by omega)]
        have harith : ((0 * 16 + 0) * 16 + c.toNat / 16) * 16 + c.toNat % 16 =
            c.toNat := by omega
        rw [harith, Char.ofNat_toNat]
      rw [he]
      rw [show ('\\' :: 'u' :: '0' :: '0' :: (Nat.digitChar (c.toNat / 16)) ::
          (Nat.digitChar (c.toNat % 16)) :: []) ++ (escapeStr cs ++ '"' :: rest) =
        '\\' :: (('u' :: '0' :: '0' :: (Nat.digitChar (c.toNat / 16)) ::
          (Nat.digitChar (c.toNat % 16)) :: []) ++ (escapeStr cs ++ '"' :: rest))
          from rfl]
      rw [psbF_escape_step f' c ('u' :: '0' :: '0' :: (Nat.digitChar (c.toNat / 16)) :: (Nat.digitChar (c.toNat % 16)) :: []) (escapeStr cs ++ '"' :: rest) hesc, ih f' rest hf']
      rfl
    · have he : escapeChar c = [c] := by
        unfold escapeChar
        rw [if_neg h1, if_neg h2, if_neg h3, if_neg h4, if_neg h5, if_neg h6,
          if_neg h7, if_neg hlt]
      rw [he]
      rw [show ([c] : List Char) ++ (escapeStr cs ++ '"' :: rest) =
        c :: (escapeStr cs ++ '"' :: rest) from rfl]
      rw [psbF_plain f' c h1 h2 hlt, ih f' rest hf']
      rfl

theorem escapeStr_len_ge (s : List Char) : s.length ≤ (escapeStr s).length := by
  induction s with
  | nil => simp [escapeStr]
  | cons c cs ih =>
    rw [show escapeStr (c :: cs) = escapeChar c ++ escapeStr cs from rfl]
    rw [List.length_append, List.length_cons]
    have := escapeChar_len_pos c
    omega

theorem parseStringBody_escape (s : List Char) (rest : List Char) :
    parseStringBody (escapeStr s ++ '"' :: rest) = some (s, rest) := by
  unfold parseStringBody
  apply parseStringBodyF_escape
  rw [List.length_append, List.length_cons]
  have := escapeStr_len_ge s
  omega

/-- Characters that may legitimately follow a rendered value inside a
stringified document and cannot extend a number lexeme. -/
theorem okRest_facts (X : List Char) (h : okRest X) :
    ∀ x, X.head? = some x →
      isDigitC x = false ∧ x ≠ '.' ∧ x ≠ 'e' ∧ x ≠ 'E' := by
  intro x hx
  unfold okRest at h
  rw [hx] at h
  rcases h with rfl | rfl | rfl | rfl <;> refine ⟨by decide, by decide, by decide, by decide⟩

theorem takeDigits_append (X : List Char)
    (hX : ∀ x, X.head? = some x → isDigitC x = false) (cs : List Char) :
    takeDigits (cs ++ X) = ((takeDigits cs).1, (takeDigits cs).2 ++ X) := by
  induction cs with
  | nil =>
    simp only [List.nil_append, takeDigits]
    cases X with
    | nil => rfl
    | cons x xs =>
      simp only [takeDigits]
      rw [if_neg (by simp [hX x rfl])]
  | cons c cs' ih =>
    simp only [List.cons_append, takeDigits]
    by_cases hc : isDigitC c
    · simp only [if_pos hc, List.append_eq, ih]
    · simp only [if_neg hc, List.append_eq, List.cons_append]

theorem lexIntPart_append (X : List Char)
    (hX : ∀ x, X.head? = some x → isDigitC x = false) (cs : List Char)
    (ip r : List Char) (h : lexIntPart cs = some (ip, r)) :
    lexIntPart (cs ++ X) = some (ip, r ++ X) := by
  cases cs with
  | nil => exact Option.noConfusion h
  | cons c cs' =>
    rw [List.cons_append]
    simp only [lexIntPart] at h ⊢
    by_cases hc : c = '0'
    · rw [if_pos hc] at h
      rw [if_pos hc]
      simp only [Option.some.injEq, Prod.mk.injEq] at h
      rw [← h.1, ← h.2]
    · rw [if_neg hc] at h
      rw [if_neg hc]
      by_cases hd : isDigitC c
      · rw [if_pos hd] at h
        rw [if_pos hd, takeDigits_append X hX cs']
        simp only [Option.some.injEq, Prod.mk.injEq] at h
        rw [← h.1, ← h.2]
      · rw [if_neg hd] at h
        exact Option.noConfusion h

theorem lexFrac_cons_ne (c : Char) (hc : c ≠ '.') (Z : List Char) :
    lexFrac (c :: Z) = some ([], c :: Z) := by
  rw [lexFrac.eq_def]
  split
  · next heq =>exact absurd (List.head_eq_of_cons_eq heq.symm) (by exact fun hh => hc hh.symm)
  · rfl

theorem lexFrac_dot (Z : List Char) :
    lexFrac ('.' :: Z) =
      (match takeDigits Z with
        | ([], _) => none
        | (ds, r) => some ('.' :: ds, r)) := rfl

theorem lexFrac_append (X : List Char)
    (hX : ∀ x, X.head? = some x → isDigitC x = false ∧ x ≠ '.')
    (cs : List Char) (fp r : List Char) (h : lexFrac cs = some (fp, r)) :
    lexFrac (cs ++ X) = some (fp, r ++ X) := by
  cases cs with
  | nil =>
    have h0 : lexFrac ([] : List Char) = some ([], []) := rfl
    rw [h0] at h
    simp only [Option.some.injEq, Prod.mk.injEq] at h
    rw [← h.1, ← h.2, List.nil_append]
    cases X with
    | nil => rfl
    | cons x xs => exact lexFrac_cons_ne x (hX x rfl).2 xs
  | cons c cs' =>
    by_cases hc : c = '.'
    · subst hc
      rw [lexFrac_dot] at h
      rw [List.cons_append, lexFrac_dot,
        takeDigits_append X (fun x hx => (hX x hx).1) cs']
      cases htd : takeDigits cs' with
      | mk ds rd =>
        rw [htd] at h
        cases ds with
        | nil => exact Option.noConfusion h
        | cons d ds' =>
          simp only [Option.some.injEq, Prod.mk.injEq] at h
          rw [← h.1, ← h.2]
    · rw [lexFrac_cons_ne c hc cs'] at h
      rw [List.cons_append, lexFrac_cons_ne c hc (cs' ++ X)]
      simp only [Option.some.injEq, Prod.mk.injEq] at h
      rw [← h.1, ← h.2]
      rfl

theorem lexExpSign_append (X : List Char) (s : Char) (r2 : List Char) :
    lexExpSign ((s :: r2) ++ X) =
      ((lexExpSign (s :: r2)).1, (lexExpSign (s :: r2)).2 ++ X) := by
  rw [List.cons_append]
  simp only [lexExpSign]
  by_cases hs : s = '+' ∨ s = '-'
  · rw [if_pos hs, if_pos hs]
  · rw [if_neg hs, if_neg hs]
    rfl

theorem lexExp_append (X : List Char)
    (hX : ∀ x, X.head? = some x → isDigitC x = false ∧ x ≠ 'e' ∧ x ≠ 'E')
    (cs : List Char) (ep r : List Char) (h : lexExp cs = some (ep, r)) :
    lexExp (cs ++ X) = some (ep, r ++ X) := by
  cases cs with
  | nil =>
    have h0 : lexExp ([] : List Char) = some ([], []) := rfl
    rw [h0] at h
    simp only [Option.some.injEq, Prod.mk.injEq] at h
    rw [List.nil_append, ← h.1, ← h.2]
    cases X with
    | nil => rfl
    | cons x xs =>
      simp only [lexExp]
      rw [if_neg (by rcases hX x rfl with ⟨_, he1, he2⟩; simp [he1, he2])]
      rfl
  | cons c cs' =>
    rw [List.cons_append]
    simp only [lexExp] at h ⊢
    by_cases hc : c = 'e' ∨ c = 'E'
    · rw [if_pos hc] at h
      rw [if_pos hc]
      cases cs' with
      | nil =>
        rw [show lexExpSign ([] : List Char) = ([], []) from rfl] at h
        rw [show takeDigits ([] : List Char) = (([] : List Char), ([] : List Char))
          from rfl] at h
        exact Option.noConfusion h
      | cons s r2 =>
        rw [lexExpSign_append X s r2]
        dsimp only at h ⊢
        rw [takeDigits_append X (fun x hx => (hX x hx).1) (lexExpSign (s :: r2)).2]
        cases htd : takeDigits (lexExpSign (s :: r2)).2 with
        | mk ds rd =>
          rw [htd] at h
          cases ds with
          | nil =>
            exact Option.noConfusion h
          | cons d ds' =>
            simp only [Option.some.injEq, Prod.mk.injEq] at h
            rw [← h.1, ← h.2]
    · rw [if_neg hc] at h
      rw [if_neg hc]
      simp only [Option.some.injEq, Prod.mk.injEq] at h
      rw [← h.1, ← h.2]
      rfl

theorem lexSign_cons_ne (c : Char) (hc : c ≠ '-') (Z : List Char) :
    lexSign (c :: Z) = ([], c :: Z) := by
  rw [lexSign.eq_def]
  split
  · next heq =>
    exact absurd (List.head_eq_of_cons_eq heq.symm) (fun hh => hc hh.symm)
  · rfl

theorem lexNumber_append (X : List Char)
    (hX : ∀ x, X.head? = some x →
      isDigitC x = false ∧ x ≠ '.' ∧ x ≠ 'e' ∧ x ≠ 'E')
    (cs l r : List Char) (h : lexNumber cs = some (l, r)) :
    lexNumber (cs ++ X) = some (l, r ++ X) := by
  cases cs with
  | nil =>
    have h0 : lexNumber ([] : List Char) = none := rfl
    rw [h0] at h
    exact Option.noConfusion h
  | cons c cs' =>
    have hsign : lexSign ((c :: cs') ++ X) =
        ((lexSign (c :: cs')).1, (lexSign (c :: cs')).2 ++ X) := by
      by_cases hc : c = '-'
      · subst hc
        rfl
      · rw [List.cons_append, lexSign_cons_ne c hc, lexSign_cons_ne c hc]
        rfl
    simp only [lexNumber] at h ⊢
    rw [hsign]
    cases hint : lexIntPart (lexSign (c :: cs')).2 with
    | none =>
      rw [hint] at h
      exact Option.noConfusion h
    | some pi =>
      obtain ⟨ip, cs2⟩ := pi
      rw [hint] at h
      rw [lexIntPart_append X (fun x hx => (hX x hx).1) _ ip cs2 hint]
      dsimp only at h ⊢
      cases hfrac : lexFrac cs2 with
      | none =>
        rw [hfrac] at h
        exact Option.noConfusion h
      | some pf =>
        obtain ⟨fp, cs3⟩ := pf
        rw [hfrac] at h
        rw [lexFrac_append X (fun x hx => ⟨(hX x hx).1, (hX x hx).2.1⟩) cs2 fp cs3 hfrac]
        dsimp only at h ⊢
        cases hexp : lexExp cs3 with
        | none =>
          rw [hexp] at h
          exact Option.noConfusion h
        | some pe =>
          obtain ⟨ep, cs4⟩ := pe
          rw [hexp] at h
          rw [lexExp_append X
            (fun x hx => ⟨(hX x hx).1, (hX x hx).2.2.1, (hX x hx).2.2.2⟩) cs3 ep cs4 hexp]
          simp only [Option.some.injEq, Prod.mk.injEq] at h
          rw [← h.1, ← h.2]

theorem numLexOk_spec (s : List Char) (h : numLexOk s = true) :
    lexNumber s = some (s, []) := by
  unfold numLexOk at h
  cases hl : lexNumber s with
  | none =>
    rw [hl] at h
    exact Bool.noConfusion h
  | some p =>
    obtain ⟨l, r⟩ := p
    rw [hl] at h
    dsimp only at h
    rw [Bool.and_eq_true] at h
    have hr : r = [] := List.isEmpty_iff.1 h.1
    have hls : l = s := eq_of_beq h.2
    rw [hr, hls]

theorem lexIntPart_head (c : Char) (Z : List Char) (p : List Char × List Char)
    (h : lexIntPart (c :: Z) = some p) : isDigitC c = true := by
  simp only [lexIntPart] at h
  by_cases hc : c = '0'
  · subst hc
    decide
  · rw [if_neg hc] at h
    by_cases hd : isDigitC c
    · exact hd
    · rw [if_neg hd] at h
      exact Option.noConfusion h

theorem numLex_head (s : List Char) (h : numLexOk s = true) :
    ∃ c s', s = c :: s' ∧ (c = '-' ∨ isDigitC c = true) := by
  have hl := numLexOk_spec s h
  cases s with
  | nil => exact Option.noConfusion hl
  | cons c s' =>
    by_cases hc : c = '-'
    · exact ⟨c, s', rfl, .inl hc⟩
    · refine ⟨c, s', rfl, .inr ?_⟩
      simp only [lexNumber, lexSign_cons_ne c hc] at hl
      cases hint : lexIntPart (c :: s') with
      | none =>
        rw [hint] at hl
        exact Option.noConfusion hl
      | some p => exact lexIntPart_head c s' p hint

theorem numHead_facts (c : Char) (hor : c = '-' ∨ isDigitC c = true) :
    c ≠ '{' ∧ c ≠ '[' ∧ c ≠ '"' ∧ c ≠ 'n' ∧ c ≠ 't' ∧ c ≠ 'f' ∧ c ≠ ']' ∧
      c ≠ '}' ∧ isJsonWs c = false := by
  rcases hor with rfl | hd
  · exact ⟨by decide, by decide, by decide, by decide, by decide, by decide,
      by decide, by decide, by decide⟩
  · have hne : ∀ (d : Char), isDigitC d = false → c ≠ d := by
      intro d hdf heq
      rw [heq] at hd
      rw [hd] at hdf
      exact Bool.noConfusion hdf
    have hws : isJsonWs c = false := by
      cases hws0 : isJsonWs c
      · rfl
      · exfalso
        simp only [isJsonWs, Bool.or_eq_true, decide_eq_true_eq] at hws0
        rcases hws0 with rfl | rfl | rfl | rfl <;> exact absurd hd (by decide)
    exact ⟨hne _ (by decide), hne _ (by decide), hne _ (by decide),
      hne _ (by decide), hne _ (by decide), hne _ (by decide), hne _ (by decide),
      hne _ (by decide), hws⟩

theorem skipWs_spaces (n : Nat) (Z : List Char) :
    skipWs (spaces n ++ Z) = skipWs Z := by
  induction n with
  | zero => rfl
  | succ n ih =>
    rw [show spaces (n + 1) = ' ' :: spaces n from by
      simp [spaces, List.replicate_succ]]
    rw [List.cons_append, show skipWs (' ' :: (spaces n ++ Z)) =
      skipWs (spaces n ++ Z) from rfl, ih]

theorem skipWs_nonws (c : Char) (h : isJsonWs c = false) (Z : List Char) :
    skipWs (c :: Z) = c :: Z := by
  rw [skipWs, if_neg (by simp [h])]

theorem skipWs_newline (Z : List Char) : skipWs ('\n' :: Z) = skipWs Z := rfl

theorem pv_null (f : Nat) (r : List Char) :
    parseValue (f + 1) ('n' :: 'u' :: 'l' :: 'l' :: r) = some (Json.null, r) := rfl

theorem pv_true (f : Nat) (r : List Char) :
    parseValue (f + 1) ('t' :: 'r' :: 'u' :: 'e' :: r) = some (Json.bool true, r) := rfl

theorem pv_false (f : Nat) (r : List Char) :
    parseValue (f + 1) ('f' :: 'a' :: 'l' :: 's' :: 'e' :: r) =
      some (Json.bool false, r) := rfl

theorem pv_str (f : Nat) (rest : List Char) :
    parseValue (f + 1) ('"' :: rest) =
      (parseStringBody rest).map (fun p => (Json.str p.1, p.2)) := rfl

theorem pv_arr_eq (f : Nat) (rest : List Char) :
    parseValue (f + 1) ('[' :: rest) =
      (match skipWs rest with
        | ']' :: r => some (Json.arr [], r)
        | cs1 =>
          match parseValue f cs1 with
          | some (v, r1) => itemsLoop (parseValue f) (r1.length + 1) [v] (skipWs r1)
          | none => none) := by
  simp only [parseValue]
  rfl

theorem pv_obj_eq (f : Nat) (rest : List Char) :
    parseValue (f + 1) ('{' :: rest) =
      (match skipWs rest with
        | '}' :: r => some (Json.obj [], r)
        | cs1 =>
          match parseMember (parseValue f) cs1 with
          | some (m, r1) => membersLoop (parseValue f) (r1.length + 1) [m] (skipWs r1)
          | none => none) := by
  simp only [parseValue]
  rfl

theorem pv_num (f : Nat) (c : Char) (cs : List Char)
    (hor : c = '-' ∨ isDigitC c = true) (h1 : c ≠ '{') (h2 : c ≠ '[')
    (h3 : c ≠ '"') (h4 : c ≠ 'n') (h5 : c ≠ 't') (h6 : c ≠ 'f') :
    parseValue (f + 1) (c :: cs) =
      (lexNumber (c :: cs)).map (fun p => (Json.num p.1, p.2)) := by
  simp only [parseValue]
  rw [if_neg h1, if_neg h2, if_neg h3, if_neg h4, if_neg h5, if_neg h6,
    if_pos hor]

theorem render_head (ind : Nat) (v : Json) (hwf : Wf v) :
    ∃ c r, renderV ind v = c :: r ∧ isJsonWs c = false ∧ c ≠ ']' ∧ c ≠ '}' := by
  cases hwf with
  | null => exact ⟨'n', _, rfl, by decide, by decide, by decide⟩
  | bool b =>
    cases b
    · exact ⟨'f', _, rfl, by decide, by decide, by decide⟩
    · exact ⟨'t', _, rfl, by decide, by decide, by decide⟩
  | num lex hlex =>
    obtain ⟨c, s', rfl, hor⟩ := numLex_head lex hlex
    obtain ⟨_, _, _, _, _, _, hrb, hcb, hws⟩ := numHead_facts c hor
    exact ⟨c, s', rfl, hws, hrb, hcb⟩
  | str s => exact ⟨'"', _, rfl, by decide, by decide, by decide⟩
  | arr xs hxs =>
    cases xs with
    | nil => exact ⟨'[', _, rfl, by decide, by decide, by decide⟩
    | cons x rest => exact ⟨'[', _, rfl, by decide, by decide, by decide⟩
  | obj ms hms hnd =>
    cases ms with
    | nil => exact ⟨'{', _, rfl, by decide, by decide, by decide⟩
    | cons m rest => exact ⟨'{', _, rfl, by decide, by decide, by decide⟩

theorem jmeasureL_mem (xs : List Json) (x : Json) (hx : x ∈ xs) :
    jmeasure x ≤ jmeasureL xs := by
  induction xs with
  | nil => cases hx
  | cons y ys ih =>
    rcases List.mem_cons.1 hx with rfl | hx
    · simp only [jmeasureL]
      omega
    · have := ih hx
      simp only [jmeasureL]
      omega

theorem jmeasureM_mem (ms : List (List Char × Json)) (m : List Char × Json)
    (hm : m ∈ ms) : jmeasure m.2 ≤ jmeasureM ms := by
  induction ms with
  | nil => cases hm
  | cons y ys ih =>
    rcases List.mem_cons.1 hm with rfl | hm
    · simp only [jmeasureM]
      omega
    · have := ih hm
      simp only [jmeasureM]
      omega

theorem insertKey_not_mem (acc : List (List Char × Json)) (k : List Char) (v : Json)
    (h : ∀ p ∈ acc, p.1 ≠ k) : insertKey acc k v = acc ++ [(k, v)] := by
  unfold insertKey
  rw [if_neg (fun hany => by
    obtain ⟨p, hp, hpk⟩ := List.any_eq_true.1 hany
    exact h p hp (of_decide_eq_true hpk))]

theorem foldl_insertKey (ms : List (List Char × Json)) :
    ∀ acc : List (List Char × Json),
      ((acc ++ ms).map Prod.fst).Nodup →
      ms.foldl (fun acc p => insertKey acc p.1 p.2) acc = acc ++ ms := by
  induction ms with
  | nil => intro acc _; simp
  | cons m rest ih =>
    intro acc hnd
    rw [List.foldl_cons]
    have hn1 : ∀ p ∈ acc, p.1 ≠ m.1 := by
      intro p hp heq
      rw [List.map_append] at hnd
      have hdisj := List.disjoint_of_nodup_append hnd
      exact hdisj (heq ▸ List.mem_map_of_mem Prod.fst hp)
        (List.mem_map_of_mem Prod.fst (List.mem_cons_self m rest))
    rw [insertKey_not_mem acc m.1 m.2 hn1]
    have heta : acc ++ [(m.1, m.2)] = acc ++ [m] := rfl
    rw [heta]
    have hassoc : (acc ++ [m]) ++ rest = acc ++ m :: rest := by simp
    rw [ih (acc ++ [m]) (by rw [hassoc]; exact hnd)]
    exact hassoc

theorem objOfMembers_nodup (ms : List (List Char × Json))
    (hnd : (ms.map Prod.fst).Nodup) : objOfMembers ms = Json.obj ms := by
  unfold objOfMembers
  rw [foldl_insertKey ms [] (by simpa using hnd)]
  rfl

theorem renderTailA_len (ind : Nat) (xs : List Json) :
    xs.length ≤ (renderTailA ind xs).length := by
  induction xs with
  | nil => simp [renderTailA]
  | cons x rest ih =>
    simp only [renderTailA, List.length_cons, List.length_append]
    omega

theorem renderTailO_len (ind : Nat) (ms : List (List Char × Json)) :
    ms.length ≤ (renderTailO ind ms).length := by
  induction ms with
  | nil => simp [renderTailO]
  | cons m rest ih =>
    simp only [renderTailO, List.length_cons, List.length_append]
    omega

theorem jmeasure_pos (v : Json) : 1 ≤ jmeasure v := by
  cases v <;> simp only [jmeasure] <;> omega

theorem okRest_newline (Z : List Char) : okRest ('\n' :: Z) := by
  simp [okRest]

theorem okRest_comma (Z : List Char) : okRest (',' :: Z) := by
  simp [okRest]

theorem okRest_tailA (ind : Nat) (xs : List Json) (Z : List Char) :
    okRest (renderTailA ind xs ++ ('\n' :: Z)) := by
  cases xs with
  | nil =>
    rw [show renderTailA ind ([] : List Json) = [] from by simp only [renderTailA],
      List.nil_append]
    exact okRest_newline Z
  | cons y ys =>
    rw [show renderTailA ind (y :: ys) =
      ',' :: '\n' :: (spaces ind ++ renderV ind y) ++ renderTailA ind ys from by
        simp only [renderTailA], List.cons_append]
    exact okRest_comma _

theorem okRest_tailO (ind : Nat) (ms : List (List Char × Json)) (Z : List Char) :
    okRest (renderTailO ind ms ++ ('\n' :: Z)) := by
  cases ms with
  | nil =>
    rw [show renderTailO ind ([] : List (List Char × Json)) = [] from by
      simp only [renderTailO], List.nil_append]
    exact okRest_newline Z
  | cons m ms' =>
    rw [show renderTailO ind (m :: ms') =
      ',' :: '\n' :: (spaces ind ++ renderMem ind m) ++ renderTailO ind ms' from by
        simp only [renderTailO], List.cons_append]
    exact okRest_comma _

theorem itemsLoop_render (f : Nat)
    (hpv : ∀ (y : Json) (ind : Nat) (rest : List Char), jmeasure y ≤ f → Wf y →
      okRest rest → parseValue f (renderV ind y ++ rest) = some (y, rest)) :
    ∀ (xs : List Json) (acc : List Json) (itf ind indC : Nat) (rest : List Char),
      (∀ y ∈ xs, Wf y) → (∀ y ∈ xs, jmeasure y ≤ f) → okRest rest →
      xs.length + 1 ≤ itf →
      itemsLoop (parseValue f) itf acc
        (skipWs (renderTailA ind xs ++ ('\n' :: (spaces indC ++ (']' :: rest))))) =
        some (Json.arr (acc.reverse ++ xs), rest) := by
  intro xs
  induction xs with
  | nil =>
    intro acc itf ind indC rest _ _ _ hitf
    obtain ⟨itf', rfl⟩ : ∃ k, itf = k + 1 := ⟨itf - 1, by omega⟩
    rw [show renderTailA ind ([] : List Json) = [] from by simp only [renderTailA],
      List.nil_append, skipWs_newline, skipWs_spaces,
      skipWs_nonws ']' (by decide)]
    rw [show itemsLoop (parseValue f) (itf' + 1) acc (']' :: rest) =
      some (Json.arr acc.reverse, rest) from rfl]
    simp
  | cons y ys ih =>
    intro acc itf ind indC rest hwf hms hrest hitf
    obtain ⟨itf', rfl⟩ : ∃ k, itf = k + 1 := ⟨itf - 1, by omega⟩
    rw [show renderTailA ind (y :: ys) =
      ',' :: '\n' :: (spaces ind ++ renderV ind y) ++ renderTailA ind ys from by
        simp only [renderTailA]]
    simp only [List.cons_append, List.append_assoc]
    rw [skipWs_nonws ',' (by decide)]
    simp only [itemsLoop]
    rw [skipWs_newline, skipWs_spaces]
    obtain ⟨c, r0, hcr, hws, _, _⟩ :=
      render_head ind y (hwf y (List.mem_cons_self _ _))
    rw [hcr, List.cons_append, skipWs_nonws c hws, ← List.cons_append, ← hcr]
    rw [hpv y ind (renderTailA ind ys ++ '\n' :: (spaces indC ++ ']' :: rest))
      (hms y (List.mem_cons_self _ _)) (hwf y (List.mem_cons_self _ _))
      (okRest_tailA ind ys (spaces indC ++ ']' :: rest))]
    dsimp only
    rw [ih (y :: acc) itf' ind indC rest (fun z hz => hwf z (List.mem_cons_of_mem _ hz))
      (fun z hz => hms z (List.mem_cons_of_mem _ hz)) hrest
      (by simp only [List.length_cons] at hitf; omega)]
    simp

theorem skipWs_space (Z : List Char) : skipWs (' ' :: Z) = skipWs Z := rfl

theorem renderMem_cons (ind : Nat) (m : List Char × Json) :
    renderMem ind m = '"' :: (escapeStr m.1 ++ ('"' :: ':' :: ' ' :: renderV ind m.2)) := by
  simp [renderMem, renderStr, List.append_assoc]

theorem parseMember_quote (pv : List Char → Option (Json × List Char)) (r2 : List Char) :
    parseMember pv ('"' :: r2) =
      match parseStringBody r2 with
      | some (k, r3) =>
        match skipWs r3 with
        | ':' :: r4 =>
          match pv (skipWs r4) with
          | some (v, r5) => some ((k, v), r5)
          | none => none
        | _ => none
      | none => none := rfl

theorem member_colon_step (pv : List Char → Option (Json × List Char))
    (k : List Char) (X : List Char) :
    (match ':' :: X with
      | ':' :: r4 =>
        match pv (skipWs r4) with
        | some (v, r5) => some ((k, v), r5)
        | none => none
      | _ => none) =
      match pv (skipWs X) with
      | some (v, r5) => some ((k, v), r5)
      | none => none := rfl

theorem parseMember_render (f ind : Nat) (m : List Char × Json) (T : List Char)
    (hwf : Wf m.2)
    (hv : parseValue f (renderV ind m.2 ++ T) = some (m.2, T)) :
    parseMember (parseValue f) (renderMem ind m ++ T) = some (m, T) := by
  obtain ⟨k, v⟩ := m
  rw [renderMem_cons]
  simp only [List.cons_append, List.append_assoc]
  rw [parseMember_quote]
  rw [parseStringBody_escape k (':' :: ' ' :: (renderV ind (k, v).2 ++ T))]
  dsimp only
  rw [skipWs_nonws ':' (by decide), member_colon_step, skipWs_space]
  obtain ⟨c, r0, hcr, hws, _, _⟩ := render_head ind (k, v).2 hwf
  rw [hcr, List.cons_append, skipWs_nonws c hws, ← List.cons_append, ← hcr, hv]

theorem membersLoop_render (f : Nat)
    (hpv : ∀ (y : Json) (ind : Nat) (rest : List Char), jmeasure y ≤ f → Wf y →
      okRest rest → parseValue f (renderV ind y ++ rest) = some (y, rest)) :
    ∀ (ms : List (List Char × Json)) (acc : List (List Char × Json))
      (itf ind indC : Nat) (rest : List Char),
      (∀ m ∈ ms, Wf m.2) → (∀ m ∈ ms, jmeasure m.2 ≤ f) → okRest rest →
      ms.length + 1 ≤ itf →
      membersLoop (parseValue f) itf acc
        (skipWs (renderTailO ind ms ++ ('\n' :: (spaces indC ++ ('}' :: rest))))) =
        some (objOfMembers (acc.reverse ++ ms), rest) := by
  intro ms
  induction ms with
  | nil =>
    intro acc itf ind indC rest _ _ _ hitf
    obtain ⟨itf', rfl⟩ : ∃ k, itf = k + 1 := ⟨itf - 1, by omega⟩
    rw [show renderTailO ind ([] : List (List Char × Json)) = [] from by
      simp only [renderTailO],
      List.nil_append, skipWs_newline, skipWs_spaces,
      skipWs_nonws '}' (by decide)]
    rw [show membersLoop (parseValue f) (itf' + 1) acc ('}' :: rest) =
      some (objOfMembers acc.reverse, rest) from rfl]
    simp
  | cons m ms' ih =>
    intro acc itf ind indC rest hwf hms hrest hitf
    obtain ⟨itf', rfl⟩ : ∃ k, itf = k + 1 := ⟨itf - 1, by omega⟩
    rw [show renderTailO ind (m :: ms') =
      ',' :: '\n' :: (spaces ind ++ renderMem ind m) ++ renderTailO ind ms' from by
        simp only [renderTailO]]
    simp only [List.cons_append, List.append_assoc]
    rw [skipWs_nonws ',' (by decide)]
    simp only [membersLoop]
    rw [skipWs_newline, skipWs_spaces]
    rw [renderMem_cons, List.cons_append, skipWs_nonws '"' (by decide),
      ← List.cons_append, ← renderMem_cons]
    rw [parseMember_render f ind m (renderTailO ind ms' ++ '\n' :: (spaces indC ++ '}' :: rest))
      (hwf m (List.mem_cons_self _ _))
      (hpv m.2 ind _ (hms m (List.mem_cons_self _ _)) (hwf m (List.mem_cons_self _ _))
        (okRest_tailO ind ms' (spaces indC ++ '}' :: rest)))]
    dsimp only
    rw [ih (m :: acc) itf' ind indC rest (fun z hz => hwf z (List.mem_cons_of_mem _ hz))
      (fun z hz => hms z (List.mem_cons_of_mem _ hz)) hrest
      (by simp only [List.length_cons] at hitf; omega)]
    simp

theorem pv_arr_cons_step (f : Nat) (c : Char) (Z : List Char) (hc : c ≠ ']') :
    (match c :: Z with
      | ']' :: r => some (Json.arr [], r)
      | cs1 =>
        match parseValue f cs1 with
        | some (v, r1) => itemsLoop (parseValue f) (r1.length + 1) [v] (skipWs r1)
        | none => none) =
      (match parseValue f (c :: Z) with
        | some (v, r1) => itemsLoop (parseValue f) (r1.length + 1) [v] (skipWs r1)
        | none => none) := by
  split
  · next r heq => exact absurd (List.head_eq_of_cons_eq heq) hc
  · rfl

theorem pv_obj_cons_step (f : Nat) (c : Char) (Z : List Char) (hc : c ≠ '}') :
    (match c :: Z with
      | '}' :: r => some (Json.obj [], r)
      | cs1 =>
        match parseMember (parseValue f) cs1 with
        | some (m, r1) => membersLoop (parseValue f) (r1.length + 1) [m] (skipWs r1)
        | none => none) =
      (match parseMember (parseValue f) (c :: Z) with
        | some (m, r1) => membersLoop (parseValue f) (r1.length + 1) [m] (skipWs r1)
        | none => none) := by
  split
  · next r heq => exact absurd (List.head_eq_of_cons_eq heq) hc
  · rfl

/-- Central round-trip lemma: a rendered well-formed value followed by a
legitimate continuation parses back to exactly that value with the
continuation untouched. -/
theorem parse_render : ∀ (f : Nat) (v : Json), Wf v → jmeasure v ≤ f →
    ∀ (ind : Nat) (rest : List Char), okRest rest →
    parseValue f (renderV ind v ++ rest) = some (v, rest) := by
  intro f
  induction f with
  | zero =>
    intro v _ hm
    have := jmeasure_pos v
    omega
  | succ f ih =>
    intro v hwf hm ind rest hrest
    have hpv : ∀ (y : Json) (ind' : Nat) (rest' : List Char), jmeasure y ≤ f → Wf y →
        okRest rest' → parseValue f (renderV ind' y ++ rest') = some (y, rest') :=
      fun y ind' rest' hy hwy hr => ih y hwy hy ind' rest' hr
    cases hwf with
    | null =>
      rw [show renderV ind Json.null = ("null").data from by simp only [renderV]]
      exact pv_null f rest
    | bool b =>
      cases b
      · rw [show renderV ind (Json.bool false) = ("false").data from by
          simp only [renderV]]
        exact pv_false f rest
      · rw [show renderV ind (Json.bool true) = ("true").data from by
          simp only [renderV]]
        exact pv_true f rest
    | num lex hlex =>
      rw [show renderV ind (Json.num lex) = lex from by simp only [renderV]]
      obtain ⟨c, s', hcs, hor⟩ := numLex_head lex hlex
      obtain ⟨h1, h2, h3, h4, h5, h6, _, _, _⟩ := numHead_facts c hor
      subst hcs
      rw [List.cons_append, pv_num f c (s' ++ rest) hor h1 h2 h3 h4 h5 h6]
      have hlx : lexNumber ((c :: s') ++ rest) = some (c :: s', [] ++ rest) :=
        lexNumber_append rest (okRest_facts rest hrest) (c :: s') (c :: s') []
          (numLexOk_spec _ hlex)
      rw [← List.cons_append, hlx]
      rfl
    | str s =>
      rw [show renderV ind (Json.str s) = renderStr s from by simp only [renderV]]
      rw [show renderStr s ++ rest = '"' :: (escapeStr s ++ '"' :: rest) from by
        simp [renderStr, List.append_assoc]]
      rw [pv_str, parseStringBody_escape]
      rfl
    | arr xs hxs =>
      cases xs with
      | nil =>
        rw [show renderV ind (Json.arr []) = '[' :: ']' :: [] from by
          simp only [renderV]]
        rw [List.cons_append, List.cons_append, List.nil_append]
        rw [pv_arr_eq, skipWs_nonws ']' (by decide)]
        rfl
      | cons x xs' =>
        rw [show renderV ind (Json.arr (x :: xs')) =
          '[' :: '\n' ::
            (spaces (ind + 2) ++ renderV (ind + 2) x ++ renderTailA (ind + 2) xs' ++
              '\n' :: (spaces ind ++ [']'])) from by simp only [renderV]]
        simp only [List.cons_append, List.append_assoc, List.singleton_append,
          List.nil_append]
        rw [pv_arr_eq, skipWs_newline, skipWs_spaces]
        obtain ⟨c, r0, hcr, hws, hc3, _⟩ :=
          render_head (ind + 2) x (hxs x (List.mem_cons_self _ _))
        rw [hcr, List.cons_append, skipWs_nonws c hws,
          pv_arr_cons_step f c _ hc3, ← List.cons_append, ← hcr]
        simp only [jmeasure, jmeasureL] at hm
        rw [hpv x (ind + 2)
          (renderTailA (ind + 2) xs' ++ '\n' :: (spaces ind ++ ']' :: rest))
          (by omega) (hxs x (List.mem_cons_self _ _))
          (okRest_tailA (ind + 2) xs' (spaces ind ++ ']' :: rest))]
        dsimp only
        exact itemsLoop_render f hpv xs' [x] _ (ind + 2) ind rest
          (fun y hy => hxs y (List.mem_cons_of_mem _ hy))
          (fun y hy => by have := jmeasureL_mem xs' y hy; omega)
          hrest
          (by
            simp only [List.length_append, List.length_cons]
            have := renderTailA_len (ind + 2) xs'
            omega)
    | obj ms hmsw hnd =>
      cases ms with
      | nil =>
        rw [show renderV ind (Json.obj []) = '{' :: '}' :: [] from by
          simp only [renderV]]
        rw [List.cons_append, List.cons_append, List.nil_append]
        rw [pv_obj_eq, skipWs_nonws '}' (by decide)]
        rfl
      | cons m ms' =>
        rw [show renderV ind (Json.obj (m :: ms')) =
          '{' :: '\n' ::
            (spaces (ind + 2) ++ renderMem (ind + 2) m ++ renderTailO (ind + 2) ms' ++
              '\n' :: (spaces ind ++ ['}'])) from by simp only [renderV]]
        simp only [List.cons_append, List.append_assoc, List.singleton_append,
          List.nil_append]
        rw [pv_obj_eq, skipWs_newline, skipWs_spaces]
        rw [renderMem_cons, List.cons_append, skipWs_nonws '"' (by decide),
          pv_obj_cons_step f '"' _ (by decide), ← List.cons_append, ← renderMem_cons]
        simp only [jmeasure, jmeasureM] at hm
        rw [parseMember_render f (ind + 2) m
          (renderTailO (ind + 2) ms' ++ '\n' :: (spaces ind ++ '}' :: rest))
          (hmsw m (List.mem_cons_self _ _))
          (hpv m.2 (ind + 2) _ (by omega) (hmsw m (List.mem_cons_self _ _))
            (okRest_tailO (ind + 2) ms' (spaces ind ++ '}' :: rest)))]
        dsimp only
        rw [membersLoop_render f hpv ms' [m] _ (ind + 2) ind rest
          (fun y hy => hmsw y (List.mem_cons_of_mem _ hy))
          (fun y hy => by have := jmeasureM_mem ms' y hy; omega)
          hrest
          (by
            simp only [List.length_append, List.length_cons]
            have := renderTailO_len (ind + 2) ms'
            omega)]
        rw [show ([m].reverse ++ ms' : List (List Char × Json)) = m :: ms' from rfl]
        rw [objOfMembers_nodup (m :: ms') hnd]

theorem renderLen_ge : ∀ (n : Nat) (v : Json) (ind : Nat), jmeasure v ≤ n →
    jmeasure v ≤ (renderV ind v).length + 1 := by
  intro n
  induction n with
  | zero =>
    intro v ind h
    have := jmeasure_pos v
    omega
  | succ n ih =>
    intro v ind h
    cases v with
    | null => simp only [jmeasure]; omega
    | bool b => simp only [jmeasure]; omega
    | num lex => simp only [jmeasure]; omega
    | str s => simp only [jmeasure]; omega
    | arr xs =>
      cases xs with
      | nil => simp only [jmeasure, jmeasureL]; omega
      | cons x xs' =>
        simp only [jmeasure, jmeasureL] at h ⊢
        have hx := ih x (ind + 2) (by omega)
        have htail : ∀ ys : List Json, (∀ y ∈ ys, jmeasure y ≤ n) →
            jmeasureL ys ≤ (renderTailA (ind + 2) ys).length := by
          intro ys
          induction ys with
          | nil => intro _; simp [jmeasureL, renderTailA]
          | cons y ys' ihy =>
            intro hb
            have hy := ih y (ind + 2) (hb y (List.mem_cons_self _ _))
            have hys := ihy (fun z hz => hb z (List.mem_cons_of_mem _ hz))
            simp only [jmeasureL]
            rw [show renderTailA (ind + 2) (y :: ys') =
              ',' :: '\n' :: (spaces (ind + 2) ++ renderV (ind + 2) y) ++
                renderTailA (ind + 2) ys' from by simp only [renderTailA]]
            simp only [List.length_cons, List.length_append]
            omega
        have ht := htail xs' (fun y hy => by
          have := jmeasureL_mem xs' y hy
          omega)
        rw [show renderV ind (Json.arr (x :: xs')) =
          '[' :: '\n' ::
            (spaces (ind + 2) ++ renderV (ind + 2) x ++ renderTailA (ind + 2) xs' ++
              '\n' :: (spaces ind ++ [']'])) from by simp only [renderV]]
        simp only [List.length_cons, List.length_append, List.length_singleton]
        omega
    | obj ms =>
      cases ms with
      | nil => simp only [jmeasure, jmeasureM]; omega
      | cons m ms' =>
        simp only [jmeasure, jmeasureM] at h ⊢
        have hx := ih m.2 (ind + 2) (by omega)
        have htail : ∀ ys : List (List Char × Json), (∀ y ∈ ys, jmeasure y.2 ≤ n) →
            jmeasureM ys ≤ (renderTailO (ind + 2) ys).length := by
          intro ys
          induction ys with
          | nil => intro _; simp [jmeasureM, renderTailO]
          | cons y ys' ihy =>
            intro hb
            have hy := ih y.2 (ind + 2) (hb y (List.mem_cons_self _ _))
            have hys := ihy (fun z hz => hb z (List.mem_cons_of_mem _ hz))
            simp only [jmeasureM]
            rw [show renderTailO (ind + 2) (y :: ys') =
              ',' :: '\n' :: (spaces (ind + 2) ++ renderMem (ind + 2) y) ++
                renderTailO (ind + 2) ys' from by simp only [renderTailO]]
            rw [show renderMem (ind + 2) y =
              renderStr y.1 ++ ':' :: ' ' :: renderV (ind + 2) y.2 from by
                simp only [renderMem]]
            simp only [List.length_cons, List.length_append]
            omega
        have ht := htail ms' (fun y hy => by
          have := jmeasureM_mem ms' y hy
          omega)
        rw [show renderV ind (Json.obj (m :: ms')) =
          '{' :: '\n' ::
            (spaces (ind + 2) ++ renderMem (ind + 2) m ++ renderTailO (ind + 2) ms' ++
              '\n' :: (spaces ind ++ ['}'])) from by simp only [renderV]]
        rw [show renderMem (ind + 2) m =
          renderStr m.1 ++ ':' :: ' ' :: renderV (ind + 2) m.2 from by
            simp only [renderMem]]
        simp only [List.length_cons, List.length_append, List.length_singleton]
        omega

/-- `JSON.parse` inverts the tree rendering of `JSON.stringify(_, _, 2)`. -/
theorem jsonParse_render (v : Json) (hwf : Wf v) :
    jsonParse (renderV 0 v) = some v := by
  unfold jsonParse
  obtain ⟨c, r0, hcr, hws, _, _⟩ := render_head 0 v hwf
  rw [hcr, skipWs_nonws c hws, ← hcr]
  have hm : jmeasure v ≤ 2 * (renderV 0 v).length + 4 := by
    have := renderLen_ge (jmeasure v) v 0 le_rfl
    omega
  have h := parse_render (2 * (renderV 0 v).length + 4) v hwf hm 0 []
    (by simp [okRest])
  rw [List.append_nil] at h
  rw [h]
  rfl

theorem hsize_pos (v : Json) : 1 ≤ hsize v := by
  cases v <;> simp only [hsize] <;> omega

theorem hsizeL_mem (xs : List Json) (x : Json) (hx : x ∈ xs) :
    hsize x ≤ hsizeL xs := by
  induction xs with
  | nil => cases hx
  | cons y ys ih =>
    rcases List.mem_cons.1 hx with rfl | hx
    · simp only [hsizeL]
      omega
    · have := ih hx
      simp only [hsizeL]
      omega

theorem hsizeM_mem (ms : List (List Char × Json)) (m : List Char × Json)
    (hm : m ∈ ms) : hsize m.2 ≤ hsizeM ms := by
  induction ms with
  | nil => cases hm
  | cons y ys ih =>
    rcases List.mem_cons.1 hm with rfl | hm
    · simp only [hsizeM]
      omega
    · have := ih hm
      simp only [hsizeM]
      omega

theorem encodeAux_ext : ∀ (n : Nat) (v : Json) (h0 : GHeap), hsize v ≤ n →
    (encodeAux v h0).1.length = h0.length + hsize v ∧ h0 <+: (encodeAux v h0).1 := by
  intro n
  induction n with
  | zero =>
    intro v h0 h
    have := hsize_pos v
    omega
  | succ n ih =>
    intro v h0 h
    cases v with
    | null =>
      exact ⟨by simp [encodeAux, hsize], by
        rw [show (encodeAux Json.null h0).1 = h0 ++ [GNode.gnull] from by
          simp only [encodeAux]]
        exact List.prefix_append _ _⟩
    | bool b =>
      exact ⟨by simp [encodeAux, hsize], by
        rw [show (encodeAux (Json.bool b) h0).1 = h0 ++ [GNode.gbool b] from by
          simp only [encodeAux]]
        exact List.prefix_append _ _⟩
    | num lex =>
      exact ⟨by simp [encodeAux, hsize], by
        rw [show (encodeAux (Json.num lex) h0).1 = h0 ++ [GNode.gnum lex] from by
          simp only [encodeAux]]
        exact List.prefix_append _ _⟩
    | str s =>
      exact ⟨by simp [encodeAux, hsize], by
        rw [show (encodeAux (Json.str s) h0).1 = h0 ++ [GNode.gstr s] from by
          simp only [encodeAux]]
        exact List.prefix_append _ _⟩
    | arr xs =>
      simp only [hsize] at h
      have hlist : ∀ (ys : List Json), (∀ y ∈ ys, hsize y ≤ n) → ∀ (hp : GHeap),
          (encodeList ys hp).1.length = hp.length + hsizeL ys ∧
            hp <+: (encodeList ys hp).1 := by
        intro ys
        induction ys with
        | nil =>
          intro _ hp
          exact ⟨by simp [encodeList, hsizeL], by
            rw [show (encodeList ([] : List Json) hp).1 = hp from by
              simp only [encodeList]]⟩
        | cons y ys' ihy =>
          intro hb hp
          have h1 := ih y hp (hb y (List.mem_cons_self _ _))
          have h2 := ihy (fun z hz => hb z (List.mem_cons_of_mem _ hz))
            (encodeAux y hp).1
          have hq : (encodeList (y :: ys') hp).1 =
              (encodeList ys' (encodeAux y hp).1).1 := by
            simp only [encodeList]
          constructor
          · rw [hq, h2.1, h1.1]
            simp only [hsizeL]
            omega
          · rw [hq]
            exact List.IsPrefix.trans h1.2 h2.2
      have hl := hlist xs (fun y hy => by
        have := hsizeL_mem xs y hy
        omega) h0
      have hq : (encodeAux (Json.arr xs) h0).1 =
          (encodeList xs h0).1 ++ [GNode.garr (encodeList xs h0).2] := by
        simp only [encodeAux]
      constructor
      · rw [hq, List.length_append, hl.1]
        simp only [hsize, List.length_singleton]
        omega
      · rw [hq]
        exact List.IsPrefix.trans hl.2 (List.prefix_append _ _)
    | obj ms =>
      simp only [hsize] at h
      have hlist : ∀ (ys : List (List Char × Json)), (∀ y ∈ ys, hsize y.2 ≤ n) →
          ∀ (hp : GHeap),
          (encodeMembers ys hp).1.length = hp.length + hsizeM ys ∧
            hp <+: (encodeMembers ys hp).1 := by
        intro ys
        induction ys with
        | nil =>
          intro _ hp
          exact ⟨by simp [encodeMembers, hsizeM], by
            rw [show (encodeMembers ([] : List (List Char × Json)) hp).1 = hp from by
              simp only [encodeMembers]]⟩
        | cons y ys' ihy =>
          intro hb hp
          have h1 := ih y.2 hp (hb y (List.mem_cons_self _ _))
          have h2 := ihy (fun z hz => hb z (List.mem_cons_of_mem _ hz))
            (encodeAux y.2 hp).1
          have hq : (encodeMembers (y :: ys') hp).1 =
              (encodeMembers ys' (encodeAux y.2 hp).1).1 := by
            simp only [encodeMembers]
          constructor
          · rw [hq, h2.1, h1.1]
            simp only [hsizeM]
            omega
          · rw [hq]
            exact List.IsPrefix.trans h1.2 h2.2
      have hl := hlist ms (fun y hy => by
        have := hsizeM_mem ms y hy
        omega) h0
      have hq : (encodeAux (Json.obj ms) h0).1 =
          (encodeMembers ms h0).1 ++ [GNode.gobj (encodeMembers ms h0).2] := by
        simp only [encodeAux]
      constructor
      · rw [hq, List.length_append, hl.1]
        simp only [hsize, List.length_singleton]
        omega
      · rw [hq]
        exact List.IsPrefix.trans hl.2 (List.prefix_append _ _)

theorem encodeAux_len (v : Json) (h0 : GHeap) :
    (encodeAux v h0).1.length = h0.length + hsize v :=
  (encodeAux_ext (hsize v) v h0 le_rfl).1

theorem encodeAux_grows (v : Json) (h0 : GHeap) : h0 <+: (encodeAux v h0).1 :=
  (encodeAux_ext (hsize v) v h0 le_rfl).2

theorem encodeList_len (ys : List Json) : ∀ (hp : GHeap),
    (encodeList ys hp).1.length = hp.length + hsizeL ys := by
  induction ys with
  | nil => intro hp; simp [encodeList, hsizeL]
  | cons y ys' ih =>
    intro hp
    rw [show (encodeList (y :: ys') hp).1 =
      (encodeList ys' (encodeAux y hp).1).1 from by simp only [encodeList]]
    rw [ih, encodeAux_len]
    simp only [hsizeL]
    omega

theorem encodeList_grows (ys : List Json) : ∀ (hp : GHeap),
    hp <+: (encodeList ys hp).1 := by
  induction ys with
  | nil =>
    intro hp
    rw [show (encodeList ([] : List Json) hp).1 = hp from by simp only [encodeList]]
  | cons y ys' ih =>
    intro hp
    rw [show (encodeList (y :: ys') hp).1 =
      (encodeList ys' (encodeAux y hp).1).1 from by simp only [encodeList]]
    exact List.IsPrefix.trans (encodeAux_grows y hp) (ih _)

theorem encodeMembers_len (ys : List (List Char × Json)) : ∀ (hp : GHeap),
    (encodeMembers ys hp).1.length = hp.length + hsizeM ys := by
  induction ys with
  | nil => intro hp; simp [encodeMembers, hsizeM]
  | cons y ys' ih =>
    intro hp
    rw [show (encodeMembers (y :: ys') hp).1 =
      (encodeMembers ys' (encodeAux y.2 hp).1).1 from by simp only [encodeMembers]]
    rw [ih, encodeAux_len]
    simp only [hsizeM]
    omega

theorem encodeMembers_grows (ys : List (List Char × Json)) : ∀ (hp : GHeap),
    hp <+: (encodeMembers ys hp).1 := by
  induction ys with
  | nil =>
    intro hp
    rw [show (encodeMembers ([] : List (List Char × Json)) hp).1 = hp from by
      simp only [encodeMembers]]
  | cons y ys' ih =>
    intro hp
    rw [show (encodeMembers (y :: ys') hp).1 =
      (encodeMembers ys' (encodeAux y.2 hp).1).1 from by simp only [encodeMembers]]
    exact List.IsPrefix.trans (encodeAux_grows y.2 hp) (ih _)

theorem get?_agree {l1 l2 : List GNode} (h : l1 <+: l2) (i : Nat)
    (hi : i < l1.length) : l2.get? i = l1.get? i := by
  obtain ⟨t, rfl⟩ := h
  exact List.get?_append hi

/-- On the heap image of a tree value, the circular-reference replacer
never fires and `serVal` produces exactly the tree rendering; the seen
set grows only by addresses of the value's own heap segment. -/
theorem encode_serVal : ∀ (fuel : Nat) (v : Json) (h0 H : GHeap) (seen : List Nat)
    (ind : Nat), Wf v → hsize v + 1 ≤ fuel →
    (encodeAux v h0).1 <+: H →
    (∀ s ∈ seen, s < h0.length ∨ (encodeAux v h0).1.length ≤ s) →
    ∃ ext, serVal H fuel seen ind (encodeAux v h0).2 =
        some (renderV ind v, seen ++ ext) ∧
      ∀ s ∈ ext, h0.length ≤ s ∧ s < (encodeAux v h0).1.length := by
  intro fuel
  induction fuel with
  | zero =>
    intro v h0 H seen ind _ h
    omega
  | succ fuel ih =>
    intro v h0 H seen ind hwf h hpre hseen
    cases hwf with
    | null =>
      have he : encodeAux Json.null h0 = (h0 ++ [GNode.gnull], h0.length) := by
        simp only [encodeAux]
      rw [he] at hpre hseen ⊢
      dsimp only at hpre hseen ⊢
      have hget : H.get? h0.length = some GNode.gnull := by
        rw [get?_agree hpre h0.length (by simp)]
        exact List.get?_concat_length h0 _
      simp only [serVal]
      rw [hget]
      dsimp only
      refine ⟨[], ?_, by simp⟩
      rw [show renderV ind Json.null = ("null").data from by simp only [renderV],
        List.append_nil]
    | bool b =>
      have he : encodeAux (Json.bool b) h0 = (h0 ++ [GNode.gbool b], h0.length) := by
        simp only [encodeAux]
      rw [he] at hpre hseen ⊢
      dsimp only at hpre hseen ⊢
      have hget : H.get? h0.length = some (GNode.gbool b) := by
        rw [get?_agree hpre h0.length (by simp)]
        exact List.get?_concat_length h0 _
      simp only [serVal]
      rw [hget]
      cases b
      · dsimp only
        refine ⟨[], ?_, by simp⟩
        rw [show renderV ind (Json.bool false) = ("false").data from by
          simp only [renderV], List.append_nil]
      · dsimp only
        refine ⟨[], ?_, by simp⟩
        rw [show renderV ind (Json.bool true) = ("true").data from by
          simp only [renderV], List.append_nil]
    | num lex hlex =>
      have he : encodeAux (Json.num lex) h0 = (h0 ++ [GNode.gnum lex], h0.length) := by
        simp only [encodeAux]
      rw [he] at hpre hseen ⊢
      dsimp only at hpre hseen ⊢
      have hget : H.get? h0.length = some (GNode.gnum lex) := by
        rw [get?_agree hpre h0.length (by simp)]
        exact List.get?_concat_length h0 _
      simp only [serVal]
      rw [hget]
      dsimp only
      refine ⟨[], ?_, by simp⟩
      rw [show renderV ind (Json.num lex) = lex from by simp only [renderV],
        List.append_nil]
    | str s =>
      have he : encodeAux (Json.str s) h0 = (h0 ++ [GNode.gstr s], h0.length) := by
        simp only [encodeAux]
      rw [he] at hpre hseen ⊢
      dsimp only at hpre hseen ⊢
      have hget : H.get? h0.length = some (GNode.gstr s) := by
        rw [get?_agree hpre h0.length (by simp)]
        exact List.get?_concat_length h0 _
      simp only [serVal]
      rw [hget]
      dsimp only
      refine ⟨[], ?_, by simp⟩
      rw [show renderV ind (Json.str s) = renderStr s from by simp only [renderV],
        List.append_nil]
    | arr xs hxs =>
      cases xs with
      | nil =>
        have he : encodeAux (Json.arr []) h0 = (h0 ++ [GNode.garr []], h0.length) := by
          simp only [encodeAux, encodeList]
        rw [he] at hpre hseen ⊢
        dsimp only at hpre hseen ⊢
        have hget : H.get? h0.length = some (GNode.garr []) := by
          rw [get?_agree hpre h0.length (by simp)]
          exact List.get?_concat_length h0 _
        have hnotin : h0.length ∉ seen := by
          intro hin
          rcases hseen _ hin with hlt | hge
          · omega
          · simp only [List.length_append, List.length_singleton] at hge
            omega
        simp only [serVal]
        rw [hget]
        dsimp only
        rw [if_neg hnotin]
        refine ⟨[h0.length], ?_, ?_⟩
        · rw [show renderV ind (Json.arr []) = '[' :: ']' :: [] from by
            simp only [renderV]]
        · intro s hs
          simp only [List.mem_singleton] at hs
          subst hs
          simp only [List.length_append, List.length_singleton]
          omega
      | cons x xs' =>
        have hel : encodeList (x :: xs') h0 =
            ((encodeList xs' (encodeAux x h0).1).1,
              (encodeAux x h0).2 :: (encodeList xs' (encodeAux x h0).1).2) := by
          simp only [encodeList]
        have he : encodeAux (Json.arr (x :: xs')) h0 =
            ((encodeList xs' (encodeAux x h0).1).1 ++
                [GNode.garr
                  ((encodeAux x h0).2 :: (encodeList xs' (encodeAux x h0).1).2)],
              (encodeList xs' (encodeAux x h0).1).1.length) := by
          simp only [encodeAux, hel]
        rw [he] at hpre hseen ⊢
        dsimp only at hpre hseen ⊢
        have hlen_px := encodeAux_len x h0
        have hlen_q := encodeList_len xs' (encodeAux x h0).1
        have hpre_q : (encodeList xs' (encodeAux x h0).1).1 <+: H :=
          List.IsPrefix.trans (List.prefix_append _ _) hpre
        have hpre_px : (encodeAux x h0).1 <+: H :=
          List.IsPrefix.trans (encodeList_grows xs' _) hpre_q
        have hget : H.get? (encodeList xs' (encodeAux x h0).1).1.length =
            some (GNode.garr
              ((encodeAux x h0).2 :: (encodeList xs' (encodeAux x h0).1).2)) := by
          rw [get?_agree hpre _ (by simp)]
          exact List.get?_concat_length _ _
        have hnotin : (encodeList xs' (encodeAux x h0).1).1.length ∉ seen := by
          intro hin
          rcases hseen _ hin with hlt | hge
          · omega
          · simp only [List.length_append, List.length_singleton] at hge
            omega
        simp only [hsize, hsizeL] at h
        simp only [serVal]
        rw [hget]
        dsimp only
        rw [if_neg hnotin]
        obtain ⟨ext1, hs1, hb1⟩ := ih x h0 H
          (seen ++ [(encodeList xs' (encodeAux x h0).1).1.length]) (ind + 2)
          (hxs x (List.mem_cons_self _ _)) (by omega) hpre_px
          (by
            intro s hs
            rcases List.mem_append.1 hs with hs | hs
            · rcases hseen s hs with hlt | hge
              · exact Or.inl hlt
              · right
                simp only [List.length_append, List.length_singleton] at hge
                omega
            · simp only [List.mem_singleton] at hs
              subst hs
              right
              omega)
        rw [hs1]
        dsimp only
        have htail : ∀ (ys : List Json), (∀ y ∈ ys, Wf y) →
            (∀ y ∈ ys, hsize y + 1 ≤ fuel) →
            ∀ (hp : GHeap) (seenT : List Nat),
            (encodeList ys hp).1 <+: H →
            (∀ s ∈ seenT, s < hp.length ∨ (encodeList ys hp).1.length ≤ s) →
            ∃ ext, serTailA (serVal H fuel) (ind + 2) (encodeList ys hp).2 seenT =
                some (renderTailA (ind + 2) ys, seenT ++ ext) ∧
              ∀ s ∈ ext, hp.length ≤ s ∧ s < (encodeList ys hp).1.length := by
          intro ys
          induction ys with
          | nil =>
            intro _ _ hp seenT _ _
            refine ⟨[], ?_, by simp⟩
            rw [show (encodeList ([] : List Json) hp).2 = [] from by
              simp only [encodeList]]
            rw [show serTailA (serVal H fuel) (ind + 2) [] seenT = some ([], seenT)
              from rfl]
            rw [show renderTailA (ind + 2) ([] : List Json) = [] from by
              simp only [renderTailA]]
            rw [List.append_nil]
          | cons y ys' ihy =>
            intro hwy hhy hp seenT hpre' hseen'
            have helc : encodeList (y :: ys') hp =
                ((encodeList ys' (encodeAux y hp).1).1,
                  (encodeAux y hp).2 :: (encodeList ys' (encodeAux y hp).1).2) := by
              simp only [encodeList]
            rw [helc] at hpre' hseen' ⊢
            dsimp only at hpre' hseen' ⊢
            have hlp := encodeAux_len y hp
            have hlq := encodeList_len ys' (encodeAux y hp).1
            simp only [serTailA]
            obtain ⟨ext1', hsy, hby⟩ := ih y hp H seenT (ind + 2)
              (hwy y (List.mem_cons_self _ _)) (hhy y (List.mem_cons_self _ _))
              (List.IsPrefix.trans (encodeList_grows ys' _) hpre')
              (by
                intro s hs
                rcases hseen' s hs with hlt | hge
                · exact Or.inl hlt
                · right
                  omega)
            rw [hsy]
            dsimp only
            obtain ⟨ext2', hs2', hb2'⟩ := ihy
              (fun z hz => hwy z (List.mem_cons_of_mem _ hz))
              (fun z hz => hhy z (List.mem_cons_of_mem _ hz))
              (encodeAux y hp).1 (seenT ++ ext1') hpre'
              (by
                intro s hs
                rcases List.mem_append.1 hs with hs | hs
                · rcases hseen' s hs with hlt | hge
                  · left
                    omega
                  · right
                    omega
                · exact Or.inl (hby s hs).2)
            rw [hs2']
            dsimp only
            refine ⟨ext1' ++ ext2', ?_, ?_⟩
            · rw [show renderTailA (ind + 2) (y :: ys') =
                ',' :: '\n' :: (spaces (ind + 2) ++ renderV (ind + 2) y) ++
                  renderTailA (ind + 2) ys' from by simp only [renderTailA]]
              rw [List.append_assoc]
            · intro s hs
              rcases List.mem_append.1 hs with hs | hs
              · have := hby s hs
                exact ⟨this.1, by omega⟩
              · have := hb2' s hs
                exact ⟨by omega, this.2⟩
        obtain ⟨ext2, hs2, hb2⟩ := htail xs'
          (fun y hy => hxs y (List.mem_cons_of_mem _ hy))
          (fun y hy => by have := hsizeL_mem xs' y hy; omega)
          (encodeAux x h0).1
          ((seen ++ [(encodeList xs' (encodeAux x h0).1).1.length]) ++ ext1)
          hpre_q
          (by
            intro s hs
            rcases List.mem_append.1 hs with hs | hs
            · rcases List.mem_append.1 hs with hs | hs
              · rcases hseen s hs with hlt | hge
                · left
                  omega
                · right
                  simp only [List.length_append, List.length_singleton] at hge
                  omega
              · simp only [List.mem_singleton] at hs
                subst hs
                right
                omega
            · exact Or.inl (hb1 s hs).2)
        rw [hs2]
        dsimp only
        refine ⟨(encodeList xs' (encodeAux x h0).1).1.length :: (ext1 ++ ext2),
          ?_, ?_⟩
        · rw [show renderV ind (Json.arr (x :: xs')) =
            '[' :: '\n' ::
              (spaces (ind + 2) ++ renderV (ind + 2) x ++ renderTailA (ind + 2) xs' ++
                '\n' :: (spaces ind ++ [']'])) from by simp only [renderV]]
          simp [List.append_assoc]
        · intro s hs
          rcases List.mem_cons.1 hs with rfl | hs
          · refine ⟨by omega, ?_⟩
            simp only [List.length_append, List.length_singleton]
            omega
          · rcases List.mem_append.1 hs with hs | hs
            · have := hb1 s hs
              refine ⟨this.1, ?_⟩
              simp only [List.length_append, List.length_singleton]
              omega
            · have := hb2 s hs
              refine ⟨by omega, ?_⟩
              simp only [List.length_append, List.length_singleton]
              omega
    | obj ms hmsw hnd =>
      cases ms with
      | nil =>
        have he : encodeAux (Json.obj []) h0 = (h0 ++ [GNode.gobj []], h0.length) := by
          simp only [encodeAux, encodeMembers]
        rw [he] at hpre hseen ⊢
        dsimp only at hpre hseen ⊢
        have hget : H.get? h0.length = some (GNode.gobj []) := by
          rw [get?_agree hpre h0.length (by simp)]
          exact List.get?_concat_length h0 _
        have hnotin : h0.length ∉ seen := by
          intro hin
          rcases hseen _ hin with hlt | hge
          · omega
          · simp only [List.length_append, List.length_singleton] at hge
            omega
        simp only [serVal]
        rw [hget]
        dsimp only
        rw [if_neg hnotin]
        refine ⟨[h0.length], ?_, ?_⟩
        · rw [show renderV ind (Json.obj []) = '{' :: '}' :: [] from by
            simp only [renderV]]
        · intro s hs
          simp only [List.mem_singleton] at hs
          subst hs
          simp only [List.length_append, List.length_singleton]
          omega
      | cons m ms' =>
        have hel : encodeMembers (m :: ms') h0 =
            ((encodeMembers ms' (encodeAux m.2 h0).1).1,
              (m.1, (encodeAux m.2 h0).2) ::
                (encodeMembers ms' (encodeAux m.2 h0).1).2) := by
          simp only [encodeMembers]
        have he : encodeAux (Json.obj (m :: ms')) h0 =
            ((encodeMembers ms' (encodeAux m.2 h0).1).1 ++
                [GNode.gobj
                  ((m.1, (encodeAux m.2 h0).2) ::
                    (encodeMembers ms' (encodeAux m.2 h0).1).2)],
              (encodeMembers ms' (encodeAux m.2 h0).1).1.length) := by
          simp only [encodeAux, hel]
        rw [he] at hpre hseen ⊢
        dsimp only at hpre hseen ⊢
        have hlen_px := encodeAux_len m.2 h0
        have hlen_q := encodeMembers_len ms' (encodeAux m.2 h0).1
        have hpre_q : (encodeMembers ms' (encodeAux m.2 h0).1).1 <+: H :=
          List.IsPrefix.trans (List.prefix_append _ _) hpre
        have hpre_px : (encodeAux m.2 h0).1 <+: H :=
          List.IsPrefix.trans (encodeMembers_grows ms' _) hpre_q
        have hget : H.get? (encodeMembers ms' (encodeAux m.2 h0).1).1.length =
            some (GNode.gobj
              ((m.1, (encodeAux m.2 h0).2) ::
                (encodeMembers ms' (encodeAux m.2 h0).1).2)) := by
          rw [get?_agree hpre _ (by simp)]
          exact List.get?_concat_length _ _
        have hnotin : (encodeMembers ms' (encodeAux m.2 h0).1).1.length ∉ seen := by
          intro hin
          rcases hseen _ hin with hlt | hge
          · omega
          · simp only [List.length_append, List.length_singleton] at hge
            omega
        simp only [hsize, hsizeM] at h
        simp only [serVal]
        rw [hget]
        dsimp only
        rw [if_neg hnotin]
        obtain ⟨ext1, hs1, hb1⟩ := ih m.2 h0 H
          (seen ++ [(encodeMembers ms' (encodeAux m.2 h0).1).1.length]) (ind + 2)
          (hmsw m (List.mem_cons_self _ _)) (by omega) hpre_px
          (by
            intro s hs
            rcases List.mem_append.1 hs with hs | hs
            · rcases hseen s hs with hlt | hge
              · exact Or.inl hlt
              · right
                simp only [List.length_append, List.length_singleton] at hge
                omega
            · simp only [List.mem_singleton] at hs
              subst hs
              right
              omega)
        rw [hs1]
        dsimp only
        have htail : ∀ (ys : List (List Char × Json)), (∀ y ∈ ys, Wf y.2) →
            (∀ y ∈ ys, hsize y.2 + 1 ≤ fuel) →
            ∀ (hp : GHeap) (seenT : List Nat),
            (encodeMembers ys hp).1 <+: H →
            (∀ s ∈ seenT, s < hp.length ∨ (encodeMembers ys hp).1.length ≤ s) →
            ∃ ext, serTailO (serVal H fuel) (ind + 2) (encodeMembers ys hp).2 seenT =
                some (renderTailO (ind + 2) ys, seenT ++ ext) ∧
              ∀ s ∈ ext, hp.length ≤ s ∧ s < (encodeMembers ys hp).1.length := by
          intro ys
          induction ys with
          | nil =>
            intro _ _ hp seenT _ _
            refine ⟨[], ?_, by simp⟩
            rw [show (encodeMembers ([] : List (List Char × Json)) hp).2 = [] from by
              simp only [encodeMembers]]
            rw [show serTailO (serVal H fuel) (ind + 2) [] seenT = some ([], seenT)
              from rfl]
            rw [show renderTailO (ind + 2) ([] : List (List Char × Json)) = [] from by
              simp only [renderTailO]]
            rw [List.append_nil]
          | cons y ys' ihy =>
            intro hwy hhy hp seenT hpre' hseen'
            have helc : encodeMembers (y :: ys') hp =
                ((encodeMembers ys' (encodeAux y.2 hp).1).1,
                  (y.1, (encodeAux y.2 hp).2) ::
                    (encodeMembers ys' (encodeAux y.2 hp).1).2) := by
              simp only [encodeMembers]
            rw [helc] at hpre' hseen' ⊢
            dsimp only at hpre' hseen' ⊢
            have hlp := encodeAux_len y.2 hp
            have hlq := encodeMembers_len ys' (encodeAux y.2 hp).1
            simp only [serTailO]
            obtain ⟨ext1', hsy, hby⟩ := ih y.2 hp H seenT (ind + 2)
              (hwy y (List.mem_cons_self _ _)) (hhy y (List.mem_cons_self _ _))
              (List.IsPrefix.trans (encodeMembers_grows ys' _) hpre')
              (by
                intro s hs
                rcases hseen' s hs with hlt | hge
                · exact Or.inl hlt
                · right
                  omega)
            rw [hsy]
            dsimp only
            obtain ⟨ext2', hs2', hb2'⟩ := ihy
              (fun z hz => hwy z (List.mem_cons_of_mem _ hz))
              (fun z hz => hhy z (List.mem_cons_of_mem _ hz))
              (encodeAux y.2 hp).1 (seenT ++ ext1') hpre'
              (by
                intro s hs
                rcases List.mem_append.1 hs with hs | hs
                · rcases hseen' s hs with hlt | hge
                  · left
                    omega
                  · right
                    omega
                · exact Or.inl (hby s hs).2)
            rw [hs2']
            dsimp only
            refine ⟨ext1' ++ ext2', ?_, ?_⟩
            · rw [show renderTailO (ind + 2) (y :: ys') =
                ',' :: '\n' :: (spaces (ind + 2) ++ renderMem (ind + 2) y) ++
                  renderTailO (ind + 2) ys' from by simp only [renderTailO]]
              rw [show renderMem (ind + 2) y =
                renderStr y.1 ++ ':' :: ' ' :: renderV (ind + 2) y.2 from by
                  simp only [renderMem]]
              simp [List.append_assoc]
            · intro s hs
              rcases List.mem_append.1 hs with hs | hs
              · have := hby s hs
                exact ⟨this.1, by omega⟩
              · have := hb2' s hs
                exact ⟨by omega, this.2⟩
        obtain ⟨ext2, hs2, hb2⟩ := htail ms'
          (fun y hy => hmsw y (List.mem_cons_of_mem _ hy))
          (fun y hy => by have := hsizeM_mem ms' y hy; omega)
          (encodeAux m.2 h0).1
          ((seen ++ [(encodeMembers ms' (encodeAux m.2 h0).1).1.length]) ++ ext1)
          hpre_q
          (by
            intro s hs
            rcases List.mem_append.1 hs with hs | hs
            · rcases List.mem_append.1 hs with hs | hs
              · rcases hseen s hs with hlt | hge
                · left
                  omega
                · right
                  simp only [List.length_append, List.length_singleton] at hge
                  omega
              · simp only [List.mem_singleton] at hs
                subst hs
                right
                omega
            · exact Or.inl (hb1 s hs).2)
        rw [hs2]
        dsimp only
        refine ⟨(encodeMembers ms' (encodeAux m.2 h0).1).1.length :: (ext1 ++ ext2),
          ?_, ?_⟩
        · rw [show renderV ind (Json.obj (m :: ms')) =
            '{' :: '\n' ::
              (spaces (ind + 2) ++ renderMem (ind + 2) m ++ renderTailO (ind + 2) ms' ++
                '\n' :: (spaces ind ++ ['}'])) from by simp only [renderV]]
          rw [show renderMem (ind + 2) m =
            renderStr m.1 ++ ':' :: ' ' :: renderV (ind + 2) m.2 from by
              simp only [renderMem]]
          simp [List.append_assoc]
        · intro s hs
          rcases List.mem_cons.1 hs with rfl | hs
          · refine ⟨by omega, ?_⟩
            simp only [List.length_append, List.length_singleton]
            omega
          · rcases List.mem_append.1 hs with hs | hs
            · have := hb1 s hs
              refine ⟨this.1, ?_⟩
              simp only [List.length_append, List.length_singleton]
              omega
            · have := hb2 s hs
              refine ⟨by omega, ?_⟩
              simp only [List.length_append, List.length_singleton]
              omega

/-- C6: Round-trip — for every acyclic JsonValue `V` (here: a tree value
whose number lexemes are valid JSON numbers and whose object keys are
unique, exactly what a live acyclic JavaScript JSON value is),
`JSON.parse` applied to `safeStringify(V)` succeeds and returns a value
structurally equal to `V`. -/
theorem safeStringify_roundtrip (v : Json) (hwf : Wf v) :
    ∃ out, safeStringify v = some out ∧ jsonParse out = some v := by
  obtain ⟨ext, hser, _⟩ := encode_serVal ((encodeAux v []).1.length + 1) v []
    (encodeAux v []).1 [] 0 hwf
    (by rw [encodeAux_len]; omega)
    (List.prefix_refl _)
    (by intro s hs; cases hs)
  refine ⟨renderV 0 v, ?_, jsonParse_render v hwf⟩
  unfold safeStringify
  dsimp only
  rw [hser]
  rfl

theorem safeStringify_roundtrip_witness :
    ∃ out,
      safeStringify (Json.obj
        [(("a").data, Json.arr [Json.num (("1").data), Json.null]),
         (("b").data, Json.str (("x").data))]) = some out ∧
      jsonParse out = some (Json.obj
        [(("a").data, Json.arr [Json.num (("1").data), Json.null]),
         (("b").data, Json.str (("x").data))]) :=
  safeStringify_roundtrip _ (by
    refine Wf.obj _ ?_ ?_
    · intro m hm
      rcases List.mem_cons.1 hm with rfl | hm
      · exact Wf.arr _ (by
          intro x hx
          rcases List.mem_cons.1 hx with rfl | hx
          · exact Wf.num _ (by decide)
          · rcases List.mem_cons.1 hx with rfl | hx
            · exact Wf.null
            · cases hx)
      · rcases List.mem_cons.1 hm with rfl | hm
        · exact Wf.str _
        · cases hm
    · decide)
